import Mathlib

/-!
Verification of the maze search engine in `week-0/maze0.py`:
frontier (stack/queue) with coordinate deduplication, node graph with
parent links, the `solve` traversal loop, grid marking, path
reconstruction and construction-time validation.
-/

namespace Maze0

/-! ### Grid cells and markers -/

abbrev Grid := List (List Char)

def START : Char := 'A'

def TARGET : Char := 'B'

def WALL : Char := '#'

def OPENC : Char := ' '

def EXPLOREDC : Char := '/'

def PATHC : Char := '*'

/-- Reads `maze_arr[x][y]`; out-of-range reads (never performed by the
translated code on the paths we verify) default to the wall marker. -/
def cell (g : Grid) (x y : Nat) : Char := (g.getD x []).getD y WALL

/-- Writes `maze_arr[x][y] = c`; a no-op out of range. -/
def setCell (g : Grid) (x y : Nat) (c : Char) : Grid :=
  g.set x ((g.getD x []).set y c)

/-- Line 133 of `maze0.py`: rewrite the cell to `'/'` only when it holds `' '`. -/
def markExplored (g : Grid) (x y : Nat) : Grid :=
  if cell g x y = OPENC then setCell g x y EXPLOREDC else g

/-! ### Moves and nodes -/

/-- The four movement directions tried by `_get_neighbors`, in source order. -/
inductive Move where
  | UP
  | LEFT
  | DOWN
  | RIGHT
deriving DecidableEq, Repr

/-- `Node`: captured cell state, coordinates, the move that produced it and
the parent back-reference. -/
inductive Node : Type where
  | mk (state : Char) (x y : Nat) (action : Option Move) (parent : Option Node)

def Node.state : Node → Char
  | .mk s _ _ _ _ => s

def Node.x : Node → Nat
  | .mk _ x _ _ _ => x

def Node.y : Node → Nat
  | .mk _ _ y _ _ => y

def Node.parent : Node → Option Node
  | .mk _ _ _ _ p => p

def Node.pos : Node → Nat × Nat
  | .mk _ x y _ _ => (x, y)

/-- Length of the parent chain in moves. -/
def Node.depth : Node → Nat
  | .mk _ _ _ _ none => 0
  | .mk _ _ _ _ (some p) => p.depth + 1

/-- Coordinates of the node and all its ancestors, newest first. -/
def chainPos : Node → List (Nat × Nat)
  | .mk _ x y _ none => [(x, y)]
  | .mk _ x y _ (some p) => (x, y) :: chainPos p

/-- The chain carries the start marker exactly at its root. -/
def chainWf : Node → Bool
  | .mk s _ _ _ none => s == START
  | .mk s _ _ _ (some p) => s != START && chainWf p

/-- `Node.__eq__`: equality by coordinates alone. -/
def nodeEq (a b : Node) : Bool := a.x == b.x && a.y == b.y

/-- Python `node in list` under coordinate equality. -/
def nodeMem (n : Node) (l : List Node) : Bool := l.any (fun m => nodeEq m n)

/-! ### Frontier -/

/-- `BaseFrontier`: pending nodes (`nodes`) plus the explored list. -/
structure Frontier where
  nodes : List Node
  explored_nodes : List Node

def Frontier.empty : Frontier := ⟨[], []⟩

/-- `BaseFrontier.add`: append unless the coordinate already occurs in
pending or explored. -/
def Frontier.add (f : Frontier) (n : Node) : Frontier :=
  if !nodeMem n f.nodes && !nodeMem n f.explored_nodes then
    { f with nodes := f.nodes ++ [n] }
  else f

def Frontier.is_empty (f : Frontier) : Bool := f.nodes.length == 0

/-- The two removal disciplines. -/
inductive Disc where
  | stack
  | queue
deriving DecidableEq

/-- `StackFrontier.remove` / `QueueFrontier.remove`; `none` models the
index error raised on an empty pending list. -/
def Frontier.remove (f : Frontier) (d : Disc) : Option (Node × Frontier) :=
  match d with
  | .stack =>
    match f.nodes.getLast? with
    | none => none
    | some n => some (n, ⟨f.nodes.dropLast, f.explored_nodes ++ [n]⟩)
  | .queue =>
    match f.nodes with
    | [] => none
    | n :: rest => some (n, ⟨rest, f.explored_nodes ++ [n]⟩)

def allNodes (f : Frontier) : List Node := f.nodes ++ f.explored_nodes

/-! ### Neighbor generation -/

/-- `Maze._next_cell`: bounds check on the relevant axis, then wall check. -/
def next_cell (rows cols : Nat) (g : Grid) (x y : Nat) (m : Move) :
    Option (Nat × Nat) :=
  match m with
  | .UP => if x = 0 then none
           else if cell g (x - 1) y = WALL then none else some (x - 1, y)
  | .DOWN => if rows ≤ x + 1 then none
             else if cell g (x + 1) y = WALL then none else some (x + 1, y)
  | .LEFT => if y = 0 then none
             else if cell g x (y - 1) = WALL then none else some (x, y - 1)
  | .RIGHT => if cols ≤ y + 1 then none
              else if cell g x (y + 1) = WALL then none else some (x, y + 1)

/-- `Maze._get_neighbors`: one candidate per direction, in source order. -/
def get_neighbors (rows cols : Nat) (g : Grid) (n : Node) : List Node :=
  [Move.UP, Move.LEFT, Move.DOWN, Move.RIGHT].filterMap (fun m =>
    (next_cell rows cols g n.x n.y m).map (fun c =>
      Node.mk (cell g c.1 c.2) c.1 c.2 (some m) (some n)))

/-! ### Path reconstruction -/

/-- Loop body of `Maze._apply_solution`: mark `'*'` and step to the parent
until a node carrying the start marker is met; `none` models falling off
the chain (`None.parent` in Python). -/
def applySolutionAux : Grid → Node → Option Grid
  | g, .mk s x y _ p =>
    if s = START then some g
    else
      match p with
      | none => none
      | some q => applySolutionAux (setCell g x y PATHC) q

/-- `Maze._apply_solution`: start the walk from the goal node's parent. -/
def apply_solution (g : Grid) (n : Node) : Option Grid :=
  match n.parent with
  | none => none
  | some p => applySolutionAux g p

/-! ### The solve loop -/

/-- Failure modes of the embedded loop: exhausted fuel, the index error of
`remove` on an empty frontier, the attribute error of `_apply_solution`
running off a parent chain. -/
inductive Err where
  | fuel
  | emptyRemove
  | badPath
deriving DecidableEq

/-- The `while` loop of `Maze.solve`.  On success the popped goal node is
returned alongside the final grid, frontier and step counter. -/
def solveLoop (rows cols : Nat) (d : Disc) :
    Nat → Grid → Frontier → Nat → Except Err (Option Node × Grid × Frontier × Nat)
  | 0, _, _, _ => .error .fuel
  | fuel + 1, g, f, steps =>
    if f.is_empty then .ok (none, g, f, steps)
    else
      match f.remove d with
      | none => .error .emptyRemove
      | some (node, f1) =>
        let g1 := markExplored g node.x node.y
        if node.state = TARGET then
          match apply_solution g1 node with
          | none => .error .badPath
          | some g2 => .ok (some node, g2, f1, steps + 1)
        else
          solveLoop rows cols d fuel g1
            ((get_neighbors rows cols g1 node).foldl Frontier.add f1) (steps + 1)

/-! ### The maze object -/

/-- Fields of the `Maze` object after construction. -/
structure Maze where
  maze_arr : Grid
  start_point : Nat × Nat
  end_point : Nat × Nat
  rows_count : Nat
  cells_count : Nat
  steps : Nat

/-- `Maze.solve`: seed the supplied frontier with the root node built at the
start coordinate, then run the loop. -/
def Maze.solve (mz : Maze) (d : Disc) (f : Frontier) (fuel : Nat) :
    Except Err (Option Node × Grid × Frontier × Nat) :=
  let node := Node.mk (cell mz.maze_arr mz.start_point.1 mz.start_point.2)
    mz.start_point.1 mz.start_point.2 none none
  solveLoop mz.rows_count mz.cells_count d fuel mz.maze_arr (f.add node) mz.steps

/-! ### Construction-time scanning and validation -/

/-- `Maze._get_start_end_points`: scan all cells, the last occurrence of a
marker wins; `none` models the empty tuple left when a marker is absent. -/
def get_start_end_points (g : Grid) :
    Option (Nat × Nat) × Option (Nat × Nat) :=
  g.enum.foldl (fun acc ir =>
    ir.2.enum.foldl (fun acc2 jc =>
      if jc.2 = START then (some (ir.1, jc.1), acc2.2)
      else if jc.2 = TARGET then (acc2.1, some (ir.1, jc.1))
      else acc2) acc) (none, none)

/-- The three fatal configuration errors of `Maze._validate_maze_points`. -/
inductive MazeError where
  | emptyMaze
  | raggedRows
  | missingPoints
deriving DecidableEq

/-- `Maze._validate_maze_points`, checked in source order. -/
def validate_maze_points (g : Grid) (sp ep : Option (Nat × Nat)) :
    Option MazeError :=
  if g.length < 1 then some .emptyMaze
  else if g.any (fun row => row.length != (g.getD 0 []).length) then
    some .raggedRows
  else if ep.isNone || sp.isNone then some .missingPoints
  else none

/-- `Maze.__init__` after file parsing: locate the endpoints, validate, and
record the grid dimensions and the zeroed step counter. -/
def Maze.init (g : Grid) : Except MazeError Maze :=
  let pts := get_start_end_points g
  match validate_maze_points g pts.1 pts.2 with
  | some e => .error e
  | none => .ok ⟨g, pts.1.getD (0, 0), pts.2.getD (0, 0), g.length,
      (g.getD 0 []).length, 0⟩

/-- Does some cell of the grid hold the character `c`? -/
def gridHas (g : Grid) (c : Char) : Bool :=
  g.any (fun row => row.any (fun ch => ch == c))

/-! ### Spec-side validity, adjacency and distance -/

/-- All rows have width `cols`. -/
def rectangular (g : Grid) (cols : Nat) : Bool :=
  g.all (fun row => row.length == cols)

/-- Positions of all cells holding `c`, in scan order. -/
def cellPositions (g : Grid) (c : Char) : List (Nat × Nat) :=
  ((List.range g.length).map (fun i =>
    ((List.range ((g.getD i []).length)).filter (fun j =>
      cell g i j == c)).map (fun j => (i, j)))).flatten

/-- A valid maze in the spec's sense: rectangular non-empty grid whose
recorded dimensions match, with exactly one start and one target cell,
located at the recorded points. -/
def validMaze (mz : Maze) : Prop :=
  mz.rows_count = mz.maze_arr.length ∧
  0 < mz.maze_arr.length ∧
  rectangular mz.maze_arr mz.cells_count = true ∧
  cellPositions mz.maze_arr START = [mz.start_point] ∧
  cellPositions mz.maze_arr TARGET = [mz.end_point]

instance (mz : Maze) : Decidable (validMaze mz) := by
  unfold validMaze
  infer_instance

/-- 4-directional adjacency of grid coordinates. -/
def adjacentB (p q : Nat × Nat) : Bool :=
  (p.1 == q.1 && (p.2 + 1 == q.2 || q.2 + 1 == p.2)) ||
  (p.2 == q.2 && (p.1 + 1 == q.1 || q.1 + 1 == p.1))

/-- In-bounds non-wall cell. -/
def openCell (rows cols : Nat) (g : Grid) (p : Nat × Nat) : Bool :=
  decide (p.1 < rows) && decide (p.2 < cols) && !(cell g p.1 p.2 == WALL)

/-- `ReachN rows cols g s k p`: there is a walk of `k` moves from `s` to `p`
through open cells of `g` (the unweighted 4-connected grid of non-wall
cells). -/
inductive ReachN (rows cols : Nat) (g : Grid) (s : Nat × Nat) :
    Nat → Nat × Nat → Prop where
  | refl : ReachN rows cols g s 0 s
  | step {k p q} : ReachN rows cols g s k p → adjacentB p q = true →
      openCell rows cols g q = true → ReachN rows cols g s (k + 1) q

/-- The parent chain of a node is a genuine walk from the start through open
cells (states and the stop marker aside). -/
def chainOk (rows cols : Nat) (g : Grid) (s : Nat × Nat) : Node → Prop
  | .mk _ x y _ none => (x, y) = s
  | .mk _ x y _ (some p) =>
      adjacentB p.pos (x, y) = true ∧ openCell rows cols g (x, y) = true ∧
      chainOk rows cols g s p

/-! ### Reachable frontier states -/

/-- Frontier states reachable from the empty frontier by `add` and
successful `remove` operations. -/
inductive FReachable (d : Disc) : Frontier → Prop where
  | base : FReachable d Frontier.empty
  | addR {f n} : FReachable d f → FReachable d (f.add n)
  | removeR {f n f'} : FReachable d f → f.remove d = some (n, f') →
      FReachable d f'

/-- Observation used to state that the `remove`-on-empty index error is
never hit by `solve`. -/
def emptyRemoveHit (r : Except Err (Option Node × Grid × Frontier × Nat)) :
    Bool :=
  match r with
  | .error .emptyRemove => true
  | _ => false

/-- The grid `g'` differs from `g` only by explored marks placed on
previously open cells. -/
def evolves (g g' : Grid) : Prop :=
  ∀ i j, cell g' i j = cell g i j ∨
    (cell g i j = OPENC ∧ cell g' i j = EXPLOREDC)

/-- Coordinates of every node held by the frontier, pending first. -/
def coords (f : Frontier) : List (Nat × Nat) := (allNodes f).map Node.pos

/-- Run-time invariant of the solve loop, for either discipline.
`g0` is the grid as seeded, `s` and `t` the start and target points, `g`
the current grid and `f` the current frontier. -/
structure Inv1 (rows cols : Nat) (g0 : Grid) (s t : Nat × Nat) (g : Grid)
    (f : Frontier) : Prop where
  nodup : (coords f).Nodup
  bnd : ∀ n ∈ allNodes f, n.x < rows ∧ n.y < cols
  chains : ∀ n ∈ allNodes f, chainOk rows cols g0 s n
  wf : ∀ n ∈ allNodes f, chainWf n = true
  chNodup : ∀ n ∈ allNodes f, (chainPos n).Nodup
  chSub : ∀ n ∈ allNodes f, ∀ p ∈ chainPos n, p ∈ coords f
  stateT : ∀ n ∈ allNodes f, (n.state = TARGET ↔ n.pos = t)
  sIn : s ∈ coords f
  tNotExp : t ∉ f.explored_nodes.map Node.pos
  evo : evolves g0 g

/-- What a node must satisfy before being offered to `Frontier.add` so that
`Inv1` survives. -/
def nodeFits (rows cols : Nat) (g0 : Grid) (s t : Nat × Nat) (f : Frontier)
    (n : Node) : Prop :=
  n.x < rows ∧ n.y < cols ∧ chainOk rows cols g0 s n ∧ chainWf n = true ∧
  (n.state = TARGET ↔ n.pos = t) ∧ (chainPos n).tail.Nodup ∧
  ∀ p ∈ (chainPos n).tail, p ∈ coords f

/-- Additional breadth-first invariant maintained by the queue discipline:
depths are true shortest distances, the pending depths are non-decreasing
and span at most two levels, explored nodes have all open neighbors
discovered, and every coordinate strictly closer than the queue head is
already explored. -/
structure InvQ (rows cols : Nat) (g0 : Grid) (s : Nat × Nat) (f : Frontier) :
    Prop where
  minimal : ∀ n ∈ allNodes f, ∀ k, ReachN rows cols g0 s k n.pos → n.depth ≤ k
  sorted : f.nodes.Pairwise (fun a b => a.depth ≤ b.depth)
  span : ∀ h ∈ f.nodes.head?, ∀ n ∈ f.nodes, n.depth ≤ h.depth + 1
  closed : ∀ m ∈ f.explored_nodes, ∀ q, adjacentB m.pos q = true →
    openCell rows cols g0 q = true → q ∈ coords f
  levels : ∀ h ∈ f.nodes.head?, ∀ p k, ReachN rows cols g0 s k p →
    k < h.depth → p ∈ f.explored_nodes.map Node.pos

/-- Did `Maze.init` succeed? -/
def initOk (g : Grid) : Bool :=
  match Maze.init g with
  | .ok _ => true
  | .error _ => false

/-! ### Concrete sample data used by witnesses -/

def demoRoot : Node := Node.mk START 0 0 none none

def demoMid : Node := Node.mk OPENC 0 1 (some Move.RIGHT) (some demoRoot)

def demoGoal : Node := Node.mk TARGET 0 2 (some Move.RIGHT) (some demoMid)

def demoGrid : Grid := [[START, OPENC, TARGET]]

def demoMaze : Maze := ⟨demoGrid, (0, 0), (0, 2), 1, 3, 0⟩

def demoAdjMaze : Maze := ⟨[[START, TARGET]], (0, 0), (0, 1), 1, 2, 0⟩

def cexMaze : Maze := ⟨[[OPENC, START, TARGET]], (0, 1), (0, 2), 1, 3, 0⟩

/-! ## Theorems -/

/-! ### Elementary cell lemmas -/

theorem getD_set_ne {α} (l : List α) {i j : Nat} (c d : α) (h : i ≠ j) :
    (l.set i c).getD j d = l.getD j d := by
  rw [List.getD_eq_getElem?_getD, List.getD_eq_getElem?_getD,
    List.getElem?_set_ne h]

theorem getD_set_lt {α} (l : List α) {i : Nat} (c d : α) (h : i < l.length) :
    (l.set i c).getD i d = c := by
  have hs : (l.set i c)[i]? = some c := by simp [List.getElem?_set_self', h]
  rw [List.getD_eq_getElem?_getD, hs]
  rfl

theorem getD_of_le {α} (l : List α) {i : Nat} (d : α) (h : l.length ≤ i) :
    l.getD i d = d := by
  rw [List.getD_eq_getElem?_getD, List.getElem?_eq_none h]
  rfl

theorem bounds_of_cell_ne_wall (g : Grid) {i j : Nat}
    (h : cell g i j ≠ WALL) : i < g.length ∧ j < (g.getD i []).length := by
  unfold cell at h
  by_cases hi : i < g.length
  · refine ⟨hi, ?_⟩
    by_contra hj
    rw [getD_of_le _ _ (Nat.le_of_not_lt hj)] at h
    exact h rfl
  · rw [getD_of_le _ _ (Nat.le_of_not_lt hi)] at h
    exact absurd rfl h

theorem cell_setCell_ne (g : Grid) {x y i j : Nat} (c : Char)
    (h : ¬(i = x ∧ j = y)) : cell (setCell g x y c) i j = cell g i j := by
  unfold cell setCell
  by_cases hix : i = x
  · subst hix
    have hjy : y ≠ j := fun h2 => h ⟨rfl, h2.symm⟩
    by_cases hx : i < g.length
    · rw [getD_set_lt _ _ _ hx, getD_set_ne _ _ _ hjy]
    · rw [List.set_eq_of_length_le (Nat.le_of_not_lt hx)]
  · rw [getD_set_ne _ _ _ (fun h2 => hix h2.symm)]

theorem cell_setCell_self (g : Grid) {x y : Nat} (c : Char)
    (hx : x < g.length) (hy : y < (g.getD x []).length) :
    cell (setCell g x y c) x y = c := by
  unfold cell setCell
  rw [getD_set_lt _ _ _ hx, getD_set_lt _ _ _ hy]

theorem markExplored_cell_ne (g : Grid) {x y i j : Nat}
    (h : ¬(i = x ∧ j = y)) : cell (markExplored g x y) i j = cell g i j := by
  unfold markExplored
  split
  · exact cell_setCell_ne g _ h
  · rfl

theorem evolves_refl (g : Grid) : evolves g g := fun _ _ => .inl rfl

theorem evolves_trans {g1 g2 g3 : Grid} (h12 : evolves g1 g2)
    (h23 : evolves g2 g3) : evolves g1 g3 := by
  intro i j
  rcases h23 i j with h | ⟨h2, h3⟩
  · rw [h]
    exact h12 i j
  · rcases h12 i j with h1 | ⟨h1, h1'⟩
    · rw [h1] at h2
      exact .inr ⟨h2, h3⟩
    · rw [h1'] at h2
      simp [EXPLOREDC, OPENC] at h2

theorem markExplored_evolves (g : Grid) (x y : Nat) :
    evolves g (markExplored g x y) := by
  intro i j
  by_cases hij : i = x ∧ j = y
  · obtain ⟨rfl, rfl⟩ := hij
    unfold markExplored
    split
    · rename_i hc
      have hb := bounds_of_cell_ne_wall g (by rw [hc]; decide)
      exact .inr ⟨hc, cell_setCell_self g _ hb.1 hb.2⟩
    · exact .inl rfl
  · rw [markExplored_cell_ne g hij]
    exact .inl rfl

theorem evolves_wall_iff {g0 g : Grid} (h : evolves g0 g) (i j : Nat) :
    (cell g i j = WALL ↔ cell g0 i j = WALL) := by
  rcases h i j with he | ⟨h1, h2⟩
  · rw [he]
  · rw [h1, h2]
    decide

theorem evolves_target_iff {g0 g : Grid} (h : evolves g0 g) (i j : Nat) :
    (cell g i j = TARGET ↔ cell g0 i j = TARGET) := by
  rcases h i j with he | ⟨h1, h2⟩
  · rw [he]
  · rw [h1, h2]
    decide

theorem evolves_openCell {g0 g : Grid} (h : evolves g0 g) (rows cols : Nat)
    (p : Nat × Nat) : openCell rows cols g p = openCell rows cols g0 p := by
  unfold openCell
  have hiff := evolves_wall_iff h p.1 p.2
  have hb : (cell g p.1 p.2 == WALL) = (cell g0 p.1 p.2 == WALL) := by
    by_cases hw : cell g0 p.1 p.2 = WALL
    · rw [beq_iff_eq.mpr hw, beq_iff_eq.mpr (hiff.mpr hw)]
    · rw [beq_eq_false_iff_ne.mpr hw,
        beq_eq_false_iff_ne.mpr (fun hc => hw (hiff.mp hc))]
  rw [hb]

/-! ### Node and frontier basics -/

theorem Node.pos_def (n : Node) : n.pos = (n.x, n.y) := by
  cases n
  rfl

theorem nodeEq_iff (a b : Node) : nodeEq a b = true ↔ a.pos = b.pos := by
  cases a with
  | mk s x y ac p =>
    cases b with
    | mk s' x' y' ac' p' =>
      simp [nodeEq, Node.x, Node.y, Node.pos, Prod.ext_iff]

theorem nodeMem_iff (n : Node) (l : List Node) :
    nodeMem n l = true ↔ n.pos ∈ l.map Node.pos := by
  simp only [nodeMem, List.any_eq_true, nodeEq_iff, List.mem_map]

theorem nodeMem_congr {n m : Node} (l : List Node) (hx : m.x = n.x)
    (hy : m.y = n.y) : nodeMem m l = nodeMem n l := by
  simp [nodeMem, nodeEq, hx, hy]

/-- Either `add` appended a genuinely new coordinate, or it left the
frontier untouched because the coordinate was already known. -/
theorem add_eq_or (f : Frontier) (n : Node) :
    (n.pos ∉ coords f ∧ f.add n = ⟨f.nodes ++ [n], f.explored_nodes⟩) ∨
    (n.pos ∈ coords f ∧ f.add n = f) := by
  unfold Frontier.add
  by_cases h1 : nodeMem n f.nodes = true
  · right
    refine ⟨?_, by simp [h1]⟩
    have := (nodeMem_iff n f.nodes).mp h1
    simp only [coords, allNodes, List.map_append, List.mem_append]
    exact .inl this
  · by_cases h2 : nodeMem n f.explored_nodes = true
    · right
      refine ⟨?_, by simp [h2]⟩
      have := (nodeMem_iff n f.explored_nodes).mp h2
      simp only [coords, allNodes, List.map_append, List.mem_append]
      exact .inr this
    · left
      constructor
      · simp only [coords, allNodes, List.map_append, List.mem_append]
        rintro (hc | hc)
        · exact h1 ((nodeMem_iff n f.nodes).mpr hc)
        · exact h2 ((nodeMem_iff n f.explored_nodes).mpr hc)
      · simp [h1, h2]

theorem add_explored_eq (f : Frontier) (n : Node) :
    (f.add n).explored_nodes = f.explored_nodes := by
  rcases add_eq_or f n with ⟨_, he⟩ | ⟨_, he⟩ <;> rw [he]

theorem coords_subset_add (f : Frontier) (n : Node) :
    ∀ p ∈ coords f, p ∈ coords (f.add n) := by
  intro p hp
  rcases add_eq_or f n with ⟨_, he⟩ | ⟨_, he⟩
  · rw [he]
    simp only [coords, allNodes, List.map_append, List.mem_append] at hp ⊢
    rcases hp with h | h
    · exact .inl (by simp [h])
    · exact .inr h
  · rw [he]
    exact hp

theorem mem_coords_add_self (f : Frontier) (n : Node) :
    n.pos ∈ coords (f.add n) := by
  rcases add_eq_or f n with ⟨_, he⟩ | ⟨hm, he⟩
  · rw [he]
    simp [coords, allNodes]
  · rw [he]
    exact hm

theorem is_empty_false_iff (f : Frontier) :
    f.is_empty = false ↔ f.nodes ≠ [] := by
  unfold Frontier.is_empty
  cases f.nodes <;> simp

/-- Everything `remove` guarantees, independent of the discipline. -/
theorem remove_spec {f : Frontier} {d : Disc} {m : Node} {f' : Frontier}
    (h : f.remove d = some (m, f')) :
    List.Perm f.nodes (m :: f'.nodes) ∧
    f'.explored_nodes = f.explored_nodes ++ [m] ∧
    List.Perm (allNodes f') (allNodes f) := by
  obtain ⟨ns, ex⟩ := f
  cases d with
  | stack =>
    cases hl : ns.getLast? with
    | none =>
      unfold Frontier.remove at h
      rw [hl] at h
      exact absurd h (by simp)
    | some a =>
      unfold Frontier.remove at h
      rw [hl] at h
      simp only [Option.some.injEq, Prod.mk.injEq] at h
      obtain ⟨rfl, rfl⟩ := h
      have hne : ns ≠ [] := by
        intro h0
        rw [h0] at hl
        simp at hl
      have hg : ns.getLast hne = a := by
        rw [List.getLast?_eq_getLast ns hne] at hl
        exact ((Option.some.injEq _ _).mp hl)
      have hsplit : ns.dropLast ++ [a] = ns := by
        rw [← hg]
        exact List.dropLast_append_getLast hne
      refine ⟨?_, rfl, ?_⟩
      · show List.Perm ns (a :: ns.dropLast)
        conv_lhs => rw [← hsplit]
        exact List.perm_append_singleton a _
      · show List.Perm (ns.dropLast ++ (ex ++ [a])) (ns ++ ex)
        conv_rhs => rw [← hsplit]
        rw [List.append_assoc]
        exact List.Perm.append_left _ (List.perm_append_singleton a _)
  | queue =>
    cases ns with
    | nil =>
      unfold Frontier.remove at h
      exact absurd h (by simp)
    | cons a t =>
      unfold Frontier.remove at h
      simp only [Option.some.injEq, Prod.mk.injEq] at h
      obtain ⟨rfl, rfl⟩ := h
      refine ⟨List.Perm.refl _, rfl, ?_⟩
      show List.Perm (t ++ (ex ++ [a])) ((a :: t) ++ ex)
      show List.Perm (t ++ (ex ++ [a])) (a :: (t ++ ex))
      exact (List.Perm.append_left t (List.perm_append_singleton a _)).trans
        List.perm_middle

theorem remove_isSome (f : Frontier) (d : Disc) (h : f.is_empty = false) :
    ∃ m f', f.remove d = some (m, f') := by
  have hne : f.nodes ≠ [] := (is_empty_false_iff f).mp h
  cases d with
  | stack =>
    unfold Frontier.remove
    rw [List.getLast?_eq_getLast f.nodes hne]
    exact ⟨_, _, rfl⟩
  | queue =>
    unfold Frontier.remove
    cases hl : f.nodes with
    | nil => exact absurd hl hne
    | cons a t => exact ⟨a, _, rfl⟩

theorem remove_mem_nodes {f : Frontier} {d : Disc} {m : Node} {f' : Frontier}
    (h : f.remove d = some (m, f')) : m ∈ f.nodes :=
  (remove_spec h).1.mem_iff.mpr (List.mem_cons_self m _)

/-- C5: when a popped node's cell is rewritten by the explored-marking step,
only a cell currently holding the open marker is changed; a cell holding
the start, target or wall marker keeps its value. -/
theorem markExplored_preserves_markers (g : Grid) (x y i j : Nat)
    (h : cell g i j = START ∨ cell g i j = TARGET ∨ cell g i j = WALL) :
    cell (markExplored g x y) i j = cell g i j := by
  by_cases hij : i = x ∧ j = y
  · obtain ⟨rfl, rfl⟩ := hij
    unfold markExplored
    split
    · rename_i hc
      rw [hc] at h
      rcases h with h | h | h <;> exact absurd h (by decide)
    · rfl
  · exact markExplored_cell_ne g hij

/-- Witness for C5 at a concrete grid and coordinates. -/
theorem markExplored_preserves_markers_witness :
    (cell [['A', ' ']] 0 0 = START ∨ cell [['A', ' ']] 0 0 = TARGET ∨
      cell [['A', ' ']] 0 0 = WALL) ∧
    cell (markExplored [['A', ' ']] 0 1) 0 0 = cell [['A', ' ']] 0 0 :=
  ⟨by decide, markExplored_preserves_markers [['A', ' ']] 0 1 0 0 (by decide)⟩

/-- C7: a second `add` of any node carrying an already-added coordinate is a
no-op, whatever its state, action or parent fields. -/
theorem add_idempotent_coord (f : Frontier) (n m : Node) (hx : m.x = n.x)
    (hy : m.y = n.y) : (f.add n).add m = f.add n := by
  have hpos : m.pos = n.pos := by
    rw [Node.pos_def, Node.pos_def, hx, hy]
  have hknown : m.pos ∈ coords (f.add n) := hpos ▸ mem_coords_add_self f n
  rcases add_eq_or (f.add n) m with ⟨hnot, _⟩ | ⟨_, he⟩
  · exact absurd hknown hnot
  · exact he

/-- Witness for C7: same coordinate, different state, action and parent. -/
theorem add_idempotent_coord_witness :
    (Node.mk TARGET 2 3 (some Move.DOWN)
        (some (Node.mk OPENC 1 3 none none))).x = (Node.mk OPENC 2 3 none none).x ∧
    (Node.mk TARGET 2 3 (some Move.DOWN)
        (some (Node.mk OPENC 1 3 none none))).y = (Node.mk OPENC 2 3 none none).y ∧
    (Frontier.empty.add (Node.mk OPENC 2 3 none none)).add
        (Node.mk TARGET 2 3 (some Move.DOWN)
          (some (Node.mk OPENC 1 3 none none))) =
      Frontier.empty.add (Node.mk OPENC 2 3 none none) :=
  ⟨rfl, rfl, add_idempotent_coord Frontier.empty (Node.mk OPENC 2 3 none none)
    (Node.mk TARGET 2 3 (some Move.DOWN) (some (Node.mk OPENC 1 3 none none)))
    rfl rfl⟩

/-- The loop of `solve` never reaches the remove-on-empty index error: the
`is_empty` guard precedes every `remove`. -/
theorem solveLoop_no_emptyRemove (rows cols : Nat) (d : Disc) (fuel : Nat) :
    ∀ (g : Grid) (f : Frontier) (st : Nat),
    emptyRemoveHit (solveLoop rows cols d fuel g f st) = false := by
  induction fuel with
  | zero =>
    intro g f st
    rfl
  | succ fuel ih =>
    intro g f st
    rw [solveLoop]
    by_cases he : f.is_empty
    · rw [if_pos he]
      rfl
    · rw [if_neg he]
      obtain ⟨m, f', hr⟩ :=
        remove_isSome f d (Bool.not_eq_true _ ▸ eq_false_of_ne_true he)
      rw [hr]
      dsimp only
      by_cases ht : m.state = TARGET
      · rw [if_pos ht]
        cases happ : apply_solution (markExplored g m.x m.y) m <;> rfl
      · rw [if_neg ht]
        exact ih _ _ _

/-- C8: within `solve`, `remove` is only invoked under the `is_empty` guard,
so the out-of-bounds indexing of `remove` on an empty pending list is
unreachable for every maze, frontier, discipline and fuel. -/
theorem solve_never_empty_remove (mz : Maze) (d : Disc) (f : Frontier)
    (fuel : Nat) : emptyRemoveHit (Maze.solve mz d f fuel) = false :=
  solveLoop_no_emptyRemove _ _ _ _ _ _ _

/-! ### The pending/explored separation invariant -/

theorem pendingInv_add (f : Frontier) (n : Node)
    (h1 : (f.nodes.map Node.pos).Nodup)
    (h2 : ∀ p ∈ f.nodes.map Node.pos, p ∉ f.explored_nodes.map Node.pos) :
    ((f.add n).nodes.map Node.pos).Nodup ∧
    ∀ p ∈ (f.add n).nodes.map Node.pos,
      p ∉ (f.add n).explored_nodes.map Node.pos := by
  rcases add_eq_or f n with ⟨hnew, he⟩ | ⟨_, he⟩
  · simp only [coords, allNodes, List.map_append, List.mem_append,
      not_or] at hnew
    rw [he]
    constructor
    · simp only [List.map_append, List.map_cons, List.map_nil]
      exact List.Nodup.append h1 (List.nodup_singleton _)
        (fun a ha hb => by
          rw [List.mem_singleton] at hb
          exact hnew.1 (hb ▸ ha))
    · intro p hp
      simp only [List.map_append, List.map_cons, List.map_nil,
        List.mem_append, List.mem_singleton] at hp
      rcases hp with hp | hp
      · exact h2 p hp
      · exact hp ▸ hnew.2
  · rw [he]
    exact ⟨h1, h2⟩

theorem pendingInv_remove {f f' : Frontier} {d : Disc} {m : Node}
    (hr : f.remove d = some (m, f'))
    (h1 : (f.nodes.map Node.pos).Nodup)
    (h2 : ∀ p ∈ f.nodes.map Node.pos, p ∉ f.explored_nodes.map Node.pos) :
    ((f'.nodes.map Node.pos).Nodup) ∧
    ∀ p ∈ f'.nodes.map Node.pos, p ∉ f'.explored_nodes.map Node.pos := by
  obtain ⟨hperm, hexp, _⟩ := remove_spec hr
  have hmap : List.Perm (f.nodes.map Node.pos)
      (m.pos :: f'.nodes.map Node.pos) := by
    have := hperm.map Node.pos
    simpa using this
  have hnodup' := hmap.nodup_iff.mp h1
  refine ⟨(List.nodup_cons.mp hnodup').2, ?_⟩
  intro p hp
  have hpmem : p ∈ f.nodes.map Node.pos :=
    hmap.mem_iff.mpr (List.mem_cons_of_mem _ hp)
  have hne : p ≠ m.pos := by
    intro heq
    exact (List.nodup_cons.mp hnodup').1 (heq ▸ hp)
  rw [hexp, List.map_append, List.mem_append]
  rintro (hc | hc)
  · exact h2 p hpmem hc
  · rw [List.map_cons, List.map_nil, List.mem_singleton] at hc
    exact hne hc

/-- C3: in every frontier state reachable by `add` and successful `remove`
operations from the empty frontier, pending coordinates are pairwise
distinct and no coordinate sits in pending and explored at once. -/
theorem frontier_reachable_invariant (d : Disc) (f : Frontier)
    (h : FReachable d f) :
    (f.nodes.map Node.pos).Nodup ∧
    ∀ p ∈ f.nodes.map Node.pos, p ∉ f.explored_nodes.map Node.pos := by
  induction h with
  | base => exact ⟨List.nodup_nil, by simp [Frontier.empty]⟩
  | addR _ ih => exact pendingInv_add _ _ ih.1 ih.2
  | removeR _ hr ih => exact pendingInv_remove hr ih.1 ih.2

/-- Witness for C3 at a concrete reachable frontier. -/
theorem frontier_reachable_invariant_witness :
    ((Frontier.empty.add (Node.mk START 0 0 none none)).nodes.map
      Node.pos).Nodup ∧
    ∀ p ∈ (Frontier.empty.add (Node.mk START 0 0 none none)).nodes.map
      Node.pos,
      p ∉ (Frontier.empty.add (Node.mk START 0 0 none none)).explored_nodes.map
        Node.pos :=
  frontier_reachable_invariant Disc.queue _
    (FReachable.addR FReachable.base)

/-! ### The step counter is a cumulative pop counter -/

theorem solveLoop_steps_shift (rows cols : Nat) (d : Disc) (fuel : Nat) :
    ∀ (g : Grid) (f : Frontier) (s t : Nat),
    solveLoop rows cols d fuel g f (s + t) =
      (solveLoop rows cols d fuel g f t).map
        (fun r => (r.1, r.2.1, r.2.2.1, s + r.2.2.2)) := by
  induction fuel with
  | zero =>
    intro g f s t
    rfl
  | succ fuel ih =>
    intro g f s t
    rw [solveLoop, solveLoop]
    by_cases he : f.is_empty
    · rw [if_pos he, if_pos he]
      rfl
    · rw [if_neg he, if_neg he]
      obtain ⟨m, f', hr⟩ :=
        remove_isSome f d (Bool.not_eq_true _ ▸ eq_false_of_ne_true he)
      rw [hr]
      dsimp only
      by_cases ht : m.state = TARGET
      · rw [if_pos ht, if_pos ht]
        cases apply_solution (markExplored g m.x m.y) m <;> rfl
      · rw [if_neg ht, if_neg ht]
        exact ih _ _ s (t + 1)

/-- C10: the step counter starts at zero when the maze is constructed, and
`solve` only ever adds its pop count on top of the counter's prior value,
so repeated `solve` calls report a cumulative total. -/
theorem steps_cumulative :
    (∀ (g : Grid) (mz : Maze), Maze.init g = .ok mz → mz.steps = 0) ∧
    ∀ (mz : Maze) (d : Disc) (f : Frontier) (fuel : Nat),
      Maze.solve mz d f fuel =
        (Maze.solve { mz with steps := 0 } d f fuel).map
          (fun r => (r.1, r.2.1, r.2.2.1, mz.steps + r.2.2.2)) := by
  constructor
  · intro g mz h
    unfold Maze.init at h
    dsimp only at h
    cases hv : validate_maze_points g (get_start_end_points g).1
        (get_start_end_points g).2 with
    | some e =>
      rw [hv] at h
      cases h
    | none =>
      rw [hv] at h
      injection h with h1
      rw [← h1]
  · intro mz d f fuel
    exact solveLoop_steps_shift mz.rows_count mz.cells_count d fuel
      mz.maze_arr _ mz.steps 0

/-- Witness for C10 at a concrete grid. -/
theorem steps_cumulative_witness :
    Maze.init [['A', 'B']] = .ok ⟨[['A', 'B']], (0, 0), (0, 1), 1, 2, 0⟩ ∧
    (⟨[['A', 'B']], (0, 0), (0, 1), 1, 2, 0⟩ : Maze).steps = 0 :=
  ⟨rfl, steps_cumulative.1 [['A', 'B']] _ rfl⟩

/-! ### Construction-time validation -/

theorem enumFrom_any {α} (p : α → Bool) :
    ∀ (l : List α) (k : Nat),
    ((List.enumFrom k l).any (fun x => p x.2)) = l.any p := by
  intro l
  induction l with
  | nil => intro k; rfl
  | cons a t ih =>
    intro k
    simp only [List.enumFrom, List.any_cons, ih]

theorem enum_any {α} (p : α → Bool) (l : List α) :
    (l.enum.any (fun x => p x.2)) = l.any p :=
  enumFrom_any p l 0

theorem scanRow_fst (i : Nat) (prs : List (Nat × Char)) :
    ∀ acc : Option (Nat × Nat) × Option (Nat × Nat),
    ((prs.foldl (fun acc2 jc =>
        if jc.2 = START then (some (i, jc.1), acc2.2)
        else if jc.2 = TARGET then (acc2.1, some (i, jc.1))
        else acc2) acc).1).isSome =
      (acc.1.isSome || prs.any (fun jc => jc.2 == START)) := by
  induction prs with
  | nil =>
    intro acc
    simp
  | cons hd tl ih =>
    intro acc
    rw [List.foldl_cons, List.any_cons, ih]
    by_cases hA : hd.2 = START
    · rw [if_pos hA, beq_iff_eq.mpr hA]
      simp
    · rw [if_neg hA, beq_eq_false_iff_ne.mpr hA]
      by_cases hB : hd.2 = TARGET
      · rw [if_pos hB]
        simp
      · rw [if_neg hB]
        simp [Bool.or_assoc]

theorem scanRow_snd (i : Nat) (prs : List (Nat × Char)) :
    ∀ acc : Option (Nat × Nat) × Option (Nat × Nat),
    ((prs.foldl (fun acc2 jc =>
        if jc.2 = START then (some (i, jc.1), acc2.2)
        else if jc.2 = TARGET then (acc2.1, some (i, jc.1))
        else acc2) acc).2).isSome =
      (acc.2.isSome || prs.any (fun jc => jc.2 == TARGET)) := by
  induction prs with
  | nil =>
    intro acc
    simp
  | cons hd tl ih =>
    intro acc
    rw [List.foldl_cons, List.any_cons, ih]
    by_cases hA : hd.2 = START
    · have hB : hd.2 ≠ TARGET := by
        rw [hA]
        decide
      rw [if_pos hA, beq_eq_false_iff_ne.mpr hB]
      simp
    · rw [if_neg hA]
      by_cases hB : hd.2 = TARGET
      · rw [if_pos hB, beq_iff_eq.mpr hB]
        simp
      · rw [if_neg hB, beq_eq_false_iff_ne.mpr hB]
        simp [Bool.or_assoc]

theorem scanGrid_fst (rl : List (Nat × List Char)) :
    ∀ acc : Option (Nat × Nat) × Option (Nat × Nat),
    ((rl.foldl (fun acc ir =>
        ir.2.enum.foldl (fun acc2 jc =>
          if jc.2 = START then (some (ir.1, jc.1), acc2.2)
          else if jc.2 = TARGET then (acc2.1, some (ir.1, jc.1))
          else acc2) acc) acc).1).isSome =
      (acc.1.isSome ||
        rl.any (fun ir => ir.2.any (fun ch => ch == START))) := by
  induction rl with
  | nil =>
    intro acc
    simp
  | cons hd tl ih =>
    intro acc
    rw [List.foldl_cons, List.any_cons, ih, scanRow_fst hd.1 hd.2.enum acc,
      enum_any (fun ch => ch == START) hd.2, Bool.or_assoc]

theorem scanGrid_snd (rl : List (Nat × List Char)) :
    ∀ acc : Option (Nat × Nat) × Option (Nat × Nat),
    ((rl.foldl (fun acc ir =>
        ir.2.enum.foldl (fun acc2 jc =>
          if jc.2 = START then (some (ir.1, jc.1), acc2.2)
          else if jc.2 = TARGET then (acc2.1, some (ir.1, jc.1))
          else acc2) acc) acc).2).isSome =
      (acc.2.isSome ||
        rl.any (fun ir => ir.2.any (fun ch => ch == TARGET))) := by
  induction rl with
  | nil =>
    intro acc
    simp
  | cons hd tl ih =>
    intro acc
    rw [List.foldl_cons, List.any_cons, ih, scanRow_snd hd.1 hd.2.enum acc,
      enum_any (fun ch => ch == TARGET) hd.2, Bool.or_assoc]

theorem scan_fst_isSome (g : Grid) :
    (get_start_end_points g).1.isSome = gridHas g START := by
  unfold get_start_end_points gridHas
  rw [scanGrid_fst g.enum (none, none)]
  rw [show ((none, none) : Option (Nat × Nat) × Option (Nat × Nat)).1.isSome
    = false from rfl, Bool.false_or]
  exact enum_any (fun row => row.any (fun ch => ch == START)) g

theorem scan_snd_isSome (g : Grid) :
    (get_start_end_points g).2.isSome = gridHas g TARGET := by
  unfold get_start_end_points gridHas
  rw [scanGrid_snd g.enum (none, none)]
  rw [show ((none, none) : Option (Nat × Nat) × Option (Nat × Nat)).2.isSome
    = false from rfl, Bool.false_or]
  exact enum_any (fun row => row.any (fun ch => ch == TARGET)) g

/-- C4 (amended): construction fails exactly when the grid is empty, some
row's width differs from the first row's, or a start or target marker is
absent; a duplicated marker is not rejected. -/
theorem init_error_iff (g : Grid) :
    initOk g = false ↔
      (g = [] ∨ (∃ row ∈ g, row.length ≠ (g.getD 0 []).length) ∨
        gridHas g START = false ∨ gridHas g TARGET = false) := by
  unfold initOk Maze.init
  dsimp only
  unfold validate_maze_points
  by_cases h1 : g.length < 1
  · rw [if_pos h1]
    dsimp only
    have hnil : g = [] := List.length_eq_zero.mp (Nat.lt_one_iff.mp h1)
    exact ⟨fun _ => .inl hnil, fun _ => rfl⟩
  · rw [if_neg h1]
    by_cases h2 : g.any (fun row => row.length != (g.getD 0 []).length) = true
    · rw [if_pos h2]
      dsimp only
      refine ⟨fun _ => .inr (.inl ?_), fun _ => rfl⟩
      obtain ⟨row, hm, hne⟩ := List.any_eq_true.mp h2
      exact ⟨row, hm, bne_iff_ne.mp hne⟩
    · rw [if_neg h2]
      by_cases h3 : ((get_start_end_points g).2.isNone ||
          (get_start_end_points g).1.isNone) = true
      · rw [if_pos h3]
        dsimp only
        refine ⟨fun _ => ?_, fun _ => rfl⟩
        rcases Bool.or_eq_true _ _ |>.mp h3 with hc | hc
        · refine .inr (.inr (.inr ?_))
          rw [← scan_snd_isSome]
          rw [Option.isNone_iff_eq_none.mp hc]
          rfl
        · refine .inr (.inr (.inl ?_))
          rw [← scan_fst_isSome]
          rw [Option.isNone_iff_eq_none.mp hc]
          rfl
      · rw [if_neg h3]
        dsimp only
        constructor
        · intro hf
          exact Bool.noConfusion hf
        · rintro (hc | hc | hc | hc)
          · exact absurd (show g.length < 1 by rw [hc]; decide) h1
          · obtain ⟨row, hm, hne⟩ := hc
            refine absurd ?_ h2
            apply List.any_eq_true.mpr
            exact ⟨row, hm, bne_iff_ne.mpr hne⟩
          · refine absurd ((Bool.or_eq_true _ _).mpr (.inr ?_)) h3
            rw [← scan_fst_isSome] at hc
            rw [Option.isNone_iff_eq_none]
            cases hop : (get_start_end_points g).1 with
            | none => rfl
            | some v =>
              rw [hop] at hc
              exact Bool.noConfusion hc
          · refine absurd ((Bool.or_eq_true _ _).mpr (.inl ?_)) h3
            rw [← scan_snd_isSome] at hc
            rw [Option.isNone_iff_eq_none]
            cases hop : (get_start_end_points g).2 with
            | none => rfl
            | some v =>
              rw [hop] at hc
              exact Bool.noConfusion hc

/-- C4 counterexample: a grid with two start markers is accepted by
construction, against the claim that duplicates raise a fatal error. -/
theorem init_accepts_duplicate_start :
    cell [['A', 'B', 'A']] 0 0 = START ∧
    cell [['A', 'B', 'A']] 0 2 = START ∧
    ((0, 0) : Nat × Nat) ≠ (0, 2) ∧
    initOk [['A', 'B', 'A']] = true := by
  decide

/-! ### Path reconstruction marks exactly the interior of the chain -/

theorem length_setCell (g : Grid) (x y : Nat) (c : Char) :
    (setCell g x y c).length = g.length := by
  simp [setCell]

theorem rowlen_setCell (g : Grid) (x y : Nat) (c : Char) (i : Nat) :
    ((setCell g x y c).getD i []).length = (g.getD i []).length := by
  unfold setCell
  by_cases hix : x = i
  · subst hix
    by_cases hx : x < g.length
    · rw [getD_set_lt _ _ _ hx, List.length_set]
    · rw [List.set_eq_of_length_le (Nat.le_of_not_lt hx)]
  · rw [getD_set_ne _ _ _ hix]

theorem chainPos_ne_nil (n : Node) : chainPos n ≠ [] := by
  cases n with
  | mk s x y a p => cases p <;> simp [chainPos]

theorem chainPos_head (n : Node) :
    chainPos n = n.pos :: (chainPos n).tail := by
  cases n with
  | mk s x y a p => cases p <;> simp [chainPos, Node.pos]

theorem chainPos_parent {n p : Node} (hp : n.parent = some p) :
    chainPos n = n.pos :: chainPos p := by
  cases n with
  | mk s x y a pr =>
    cases pr with
    | none => exact absurd hp (by simp [Node.parent])
    | some q =>
      have : q = p := by
        simpa [Node.parent] using hp
      subst this
      simp [chainPos, Node.pos]

theorem chainWf_parent {n p : Node} (hp : n.parent = some p)
    (hwf : chainWf n = true) : n.state ≠ START ∧ chainWf p = true := by
  cases n with
  | mk s x y a pr =>
    cases pr with
    | none => exact absurd hp (by simp [Node.parent])
    | some q =>
      have : q = p := by
        simpa [Node.parent] using hp
      subst this
      simp only [chainWf, Bool.and_eq_true, bne_iff_ne] at hwf
      exact ⟨by simpa [Node.state] using hwf.1, hwf.2⟩

theorem getLast_not_mem_dropLast {α} (l : List α) (h : l.Nodup)
    (hne : l ≠ []) : l.getLast hne ∉ l.dropLast := by
  intro hc
  have hsplit : l.dropLast ++ [l.getLast hne] = l :=
    List.dropLast_append_getLast hne
  rw [← hsplit] at h
  exact List.disjoint_of_nodup_append h hc (List.mem_singleton_self _)

/-- The reconstruction walk marks precisely the non-root coordinates of a
well-formed chain and leaves every other cell alone. -/
theorem applySolutionAux_marks :
    ∀ (p : Node) (g : Grid), chainWf p = true → (chainPos p).Nodup →
    (∀ q ∈ (chainPos p).dropLast,
      q.1 < g.length ∧ q.2 < (g.getD q.1 []).length) →
    ∃ g', applySolutionAux g p = some g' ∧
      (∀ q ∈ (chainPos p).dropLast, cell g' q.1 q.2 = PATHC) ∧
      (∀ i j, (i, j) ∉ (chainPos p).dropLast → cell g' i j = cell g i j)
  | .mk s x y a none, g, hwf, _, _ => by
    have hs : s = START := by
      simpa [chainWf] using hwf
    refine ⟨g, ?_, ?_, ?_⟩
    · unfold applySolutionAux
      rw [if_pos hs]
    · intro q hq
      simp [chainPos] at hq
    · intro i j _
      rfl
  | .mk s x y a (some q), g, hwf, hnd, hb => by
    simp only [chainWf, Bool.and_eq_true, bne_iff_ne] at hwf
    obtain ⟨hs, hwq⟩ := hwf
    have hqne : chainPos q ≠ [] := chainPos_ne_nil q
    have hdrop : (chainPos (Node.mk s x y a (some q))).dropLast =
        (x, y) :: (chainPos q).dropLast := by
      show ((x, y) :: chainPos q).dropLast = _
      rw [List.dropLast_cons_of_ne_nil hqne]
    have hnd' : (x, y) ∉ chainPos q ∧ (chainPos q).Nodup := by
      have := List.nodup_cons.mp (by simpa [chainPos] using hnd)
      exact this
    have hbxy : x < g.length ∧ y < (g.getD x []).length := by
      have := hb (x, y) (by rw [hdrop]; exact List.mem_cons_self _ _)
      simpa using this
    have hb' : ∀ r ∈ (chainPos q).dropLast,
        r.1 < (setCell g x y PATHC).length ∧
        r.2 < ((setCell g x y PATHC).getD r.1 []).length := by
      intro r hr
      have := hb r (by rw [hdrop]; exact List.mem_cons_of_mem _ hr)
      rw [length_setCell, rowlen_setCell]
      exact this
    obtain ⟨g', heq, hmarks, hframe⟩ :=
      applySolutionAux_marks q (setCell g x y PATHC) hwq hnd'.2 hb'
    refine ⟨g', ?_, ?_, ?_⟩
    · unfold applySolutionAux
      rw [if_neg hs]
      exact heq
    · intro r hr
      rw [hdrop] at hr
      rcases List.mem_cons.mp hr with hr | hr
      · subst hr
        have hnotin : ((x, y) : Nat × Nat) ∉ (chainPos q).dropLast :=
          fun hc => hnd'.1 (List.dropLast_subset _ hc)
        rw [hframe x y hnotin]
        exact cell_setCell_self g PATHC hbxy.1 hbxy.2
      · exact hmarks r hr
    · intro i j hij
      rw [hdrop] at hij
      have h1 : ((i, j) : Nat × Nat) ∉ (chainPos q).dropLast :=
        fun hc => hij (List.mem_cons_of_mem _ hc)
      have h2 : ¬(i = x ∧ j = y) := by
        rintro ⟨rfl, rfl⟩
        exact hij (List.mem_cons_self _ _)
      rw [hframe i j h1]
      exact cell_setCell_ne g _ h2

/-- C6: on a well-formed goal chain, `_apply_solution` succeeds and paints
`'*'` on exactly the interior coordinates of the parent chain; the goal
(target) coordinate and the root (start) coordinate are not among them. -/
theorem apply_solution_between (g : Grid) (n p : Node)
    (hp : n.parent = some p) (hwf : chainWf n = true)
    (hnd : (chainPos n).Nodup)
    (hb : ∀ q ∈ ((chainPos n).drop 1).dropLast,
      q.1 < g.length ∧ q.2 < (g.getD q.1 []).length) :
    ∃ g', apply_solution g n = some g' ∧
      (∀ q ∈ ((chainPos n).drop 1).dropLast, cell g' q.1 q.2 = PATHC) ∧
      (∀ i j, (i, j) ∉ ((chainPos n).drop 1).dropLast →
        cell g' i j = cell g i j) ∧
      n.pos ∉ ((chainPos n).drop 1).dropLast ∧
      (chainPos n).getLast (chainPos_ne_nil n) ∉
        ((chainPos n).drop 1).dropLast := by
  have hchain := chainPos_parent hp
  have hdrop1 : (chainPos n).drop 1 = chainPos p := by
    rw [hchain]
    rfl
  have hndp : n.pos ∉ chainPos p ∧ (chainPos p).Nodup :=
    List.nodup_cons.mp (hchain ▸ hnd)
  obtain ⟨g', heq, hmarks, hframe⟩ :=
    applySolutionAux_marks p g (chainWf_parent hp hwf).2 hndp.2
      (by rw [← hdrop1]; exact hb)
  refine ⟨g', ?_, ?_, ?_, ?_, ?_⟩
  · unfold apply_solution
    rw [hp]
    exact heq
  · rw [hdrop1]
    exact hmarks
  · rw [hdrop1]
    exact hframe
  · rw [hdrop1]
    exact fun hc => hndp.1 (List.dropLast_subset _ hc)
  · rw [hdrop1]
    have hlast : (chainPos n).getLast (chainPos_ne_nil n) =
        (chainPos p).getLast (chainPos_ne_nil p) := by
      rw [List.getLast_congr _ _ hchain]
      exact List.getLast_cons (chainPos_ne_nil p)
    rw [hlast]
    exact getLast_not_mem_dropLast _ hndp.2 _

/-- Witness for C6 on a three-node chain over a one-row grid. -/
theorem apply_solution_between_witness :
    demoGoal.parent = some demoMid ∧ chainWf demoGoal = true ∧
    (chainPos demoGoal).Nodup ∧
    (∃ g', apply_solution demoGrid demoGoal = some g' ∧
      (∀ q ∈ ((chainPos demoGoal).drop 1).dropLast,
        cell g' q.1 q.2 = PATHC) ∧
      (∀ i j, (i, j) ∉ ((chainPos demoGoal).drop 1).dropLast →
        cell g' i j = cell demoGrid i j) ∧
      demoGoal.pos ∉ ((chainPos demoGoal).drop 1).dropLast ∧
      (chainPos demoGoal).getLast (chainPos_ne_nil demoGoal) ∉
        ((chainPos demoGoal).drop 1).dropLast) :=
  ⟨rfl, by decide, by decide,
    apply_solution_between demoGrid demoGoal demoMid rfl (by decide)
      (by decide) (by decide)⟩

/-! ### Neighbor generation versus grid adjacency -/

theorem adjacentB_iff (p q : Nat × Nat) :
    adjacentB p q = true ↔
      ((p.1 = q.1 ∧ (p.2 + 1 = q.2 ∨ q.2 + 1 = p.2)) ∨
        (p.2 = q.2 ∧ (p.1 + 1 = q.1 ∨ q.1 + 1 = p.1))) := by
  simp [adjacentB]

theorem openCell_iff (rows cols : Nat) (g : Grid) (p : Nat × Nat) :
    openCell rows cols g p = true ↔
      (p.1 < rows ∧ p.2 < cols ∧ cell g p.1 p.2 ≠ WALL) := by
  simp only [openCell, Bool.and_eq_true, decide_eq_true_eq, Bool.not_eq_true',
    beq_eq_false_iff_ne]
  exact and_assoc

theorem next_cell_sound {rows cols : Nat} {g : Grid} {x y : Nat} {m : Move}
    {c : Nat × Nat} (h : next_cell rows cols g x y m = some c)
    (hx : x < rows) (hy : y < cols) :
    adjacentB (x, y) c = true ∧ openCell rows cols g c = true := by
  cases m with
  | UP =>
    simp only [next_cell] at h
    split_ifs at h with h1 h2
    injection h with h
    subst h
    refine ⟨(adjacentB_iff _ _).mpr ?_, (openCell_iff _ _ _ _).mpr ?_⟩
    · right
      exact ⟨rfl, .inr (by omega)⟩
    · exact ⟨by omega, hy, h2⟩
  | DOWN =>
    simp only [next_cell] at h
    split_ifs at h with h1 h2
    injection h with h
    subst h
    refine ⟨(adjacentB_iff _ _).mpr ?_, (openCell_iff _ _ _ _).mpr ?_⟩
    · right
      exact ⟨rfl, .inl rfl⟩
    · exact ⟨by omega, hy, h2⟩
  | LEFT =>
    simp only [next_cell] at h
    split_ifs at h with h1 h2
    injection h with h
    subst h
    refine ⟨(adjacentB_iff _ _).mpr ?_, (openCell_iff _ _ _ _).mpr ?_⟩
    · left
      exact ⟨rfl, .inr (by omega)⟩
    · exact ⟨hx, by omega, h2⟩
  | RIGHT =>
    simp only [next_cell] at h
    split_ifs at h with h1 h2
    injection h with h
    subst h
    refine ⟨(adjacentB_iff _ _).mpr ?_, (openCell_iff _ _ _ _).mpr ?_⟩
    · left
      exact ⟨rfl, .inl rfl⟩
    · exact ⟨hx, by omega, h2⟩

theorem next_cell_complete {rows cols : Nat} {g : Grid} {x y : Nat}
    {q : Nat × Nat} (hadj : adjacentB (x, y) q = true)
    (hopen : openCell rows cols g q = true) :
    ∃ m, next_cell rows cols g x y m = some q := by
  obtain ⟨a, b⟩ := q
  obtain ⟨hq1, hq2, hqw⟩ := (openCell_iff _ _ _ _).mp hopen
  have hq1' : a < rows := hq1
  have hq2' : b < cols := hq2
  rcases (adjacentB_iff (x, y) (a, b)).mp hadj with
    ⟨h1, h2 | h2⟩ | ⟨h1, h2 | h2⟩
  · have h1' : x = a := h1
    have h2' : y + 1 = b := h2
    have hw : ¬(cell g x (y + 1) = WALL) := by
      rw [h1', h2']
      exact hqw
    refine ⟨Move.RIGHT, ?_⟩
    simp only [next_cell]
    rw [if_neg (show ¬(cols ≤ y + 1) by omega), if_neg hw, h1', h2']
  · have h1' : x = a := h1
    have h2' : b + 1 = y := h2
    have hy0 : ¬(y = 0) := by omega
    have hyb : y - 1 = b := by omega
    have hw : ¬(cell g x (y - 1) = WALL) := by
      rw [h1', hyb]
      exact hqw
    refine ⟨Move.LEFT, ?_⟩
    simp only [next_cell]
    rw [if_neg hy0, if_neg hw, h1', hyb]
  · have h1' : y = b := h1
    have h2' : x + 1 = a := h2
    have hw : ¬(cell g (x + 1) y = WALL) := by
      rw [h2', h1']
      exact hqw
    refine ⟨Move.DOWN, ?_⟩
    simp only [next_cell]
    rw [if_neg (show ¬(rows ≤ x + 1) by omega), if_neg hw, h2', h1']
  · have h1' : y = b := h1
    have h2' : a + 1 = x := h2
    have hx0 : ¬(x = 0) := by omega
    have hxa : x - 1 = a := by omega
    have hw : ¬(cell g (x - 1) y = WALL) := by
      rw [hxa, h1']
      exact hqw
    refine ⟨Move.UP, ?_⟩
    simp only [next_cell]
    rw [if_neg hx0, if_neg hw, hxa, h1']

/-- Membership in the generated neighbor list, structurally. -/
theorem mem_get_neighbors {rows cols : Nat} {g : Grid} {n nd : Node} :
    nd ∈ get_neighbors rows cols g n ↔
      ∃ m c, next_cell rows cols g n.x n.y m = some c ∧
        nd = Node.mk (cell g c.1 c.2) c.1 c.2 (some m) (some n) := by
  unfold get_neighbors
  rw [List.mem_filterMap]
  constructor
  · rintro ⟨m, _, hm⟩
    rw [Option.map_eq_some'] at hm
    obtain ⟨c, hc, he⟩ := hm
    exact ⟨m, c, hc, he.symm⟩
  · rintro ⟨m, c, hc, rfl⟩
    refine ⟨m, ?_, ?_⟩
    · cases m <;> simp
    · rw [Option.map_eq_some']
      exact ⟨c, hc, rfl⟩

/-- Positions occurring in the neighbor list are exactly the open adjacent
cells. -/
theorem pos_mem_get_neighbors {rows cols : Nat} {g : Grid} {n : Node}
    (hx : n.x < rows) (hy : n.y < cols) (q : Nat × Nat) :
    q ∈ (get_neighbors rows cols g n).map Node.pos ↔
      (adjacentB n.pos q = true ∧ openCell rows cols g q = true) := by
  rw [List.mem_map]
  constructor
  · rintro ⟨nd, hnd, rfl⟩
    obtain ⟨m, c, hc, rfl⟩ := mem_get_neighbors.mp hnd
    have h2 := next_cell_sound hc hx hy
    have hp : (Node.mk (cell g c.1 c.2) c.1 c.2 (some m) (some n)).pos = c :=
      rfl
    rw [hp, Node.pos_def]
    exact h2
  · rintro ⟨hadj, hopen⟩
    rw [Node.pos_def] at hadj
    obtain ⟨m, hm⟩ := next_cell_complete hadj hopen
    exact ⟨Node.mk (cell g q.1 q.2) q.1 q.2 (some m) (some n),
      mem_get_neighbors.mpr ⟨m, q, hm, rfl⟩, rfl⟩

/-! ### Preservation of the loop invariant -/

theorem Inv1.mark {rows cols : Nat} {g0 : Grid} {s t : Nat × Nat} {g : Grid}
    {f : Frontier} (h : Inv1 rows cols g0 s t g f) (x y : Nat) :
    Inv1 rows cols g0 s t (markExplored g x y) f :=
  { h with evo := evolves_trans h.evo (markExplored_evolves g x y) }

theorem coords_perm_of_add {f : Frontier} {n : Node}
    (he : f.add n = ⟨f.nodes ++ [n], f.explored_nodes⟩) :
    List.Perm (allNodes (f.add n)) (n :: allNodes f) := by
  rw [he]
  show List.Perm ((f.nodes ++ [n]) ++ f.explored_nodes)
    (n :: (f.nodes ++ f.explored_nodes))
  rw [List.append_assoc]
  exact List.perm_middle

theorem Inv1.add_pres {rows cols : Nat} {g0 : Grid} {s t : Nat × Nat}
    {g : Grid} {f : Frontier} (h : Inv1 rows cols g0 s t g f) (n : Node)
    (hfit : n.pos ∉ coords f → nodeFits rows cols g0 s t f n) :
    Inv1 rows cols g0 s t g (f.add n) := by
  rcases add_eq_or f n with ⟨hnew, he⟩ | ⟨_, he⟩
  · obtain ⟨hx, hy, hchain, hwf, hstate, htlnd, htlsub⟩ := hfit hnew
    have hperm := coords_perm_of_add he
    have hcperm : List.Perm (coords (f.add n)) (n.pos :: coords f) := by
      have := hperm.map Node.pos
      simpa [coords] using this
    have hmem : ∀ a ∈ allNodes (f.add n), a = n ∨ a ∈ allNodes f :=
      fun a ha => List.mem_cons.mp (hperm.mem_iff.mp ha)
    have hsub : ∀ p ∈ coords f, p ∈ coords (f.add n) :=
      fun p hp => hcperm.mem_iff.mpr (List.mem_cons_of_mem _ hp)
    have hself : n.pos ∈ coords (f.add n) :=
      hcperm.mem_iff.mpr (List.mem_cons_self _ _)
    refine ⟨?_, ?_, ?_, ?_, ?_, ?_, ?_, ?_, ?_, ?_⟩
    · exact hcperm.nodup_iff.mpr (List.nodup_cons.mpr ⟨hnew, h.nodup⟩)
    · intro a ha
      rcases hmem a ha with rfl | ha'
      · exact ⟨hx, hy⟩
      · exact h.bnd a ha'
    · intro a ha
      rcases hmem a ha with rfl | ha'
      · exact hchain
      · exact h.chains a ha'
    · intro a ha
      rcases hmem a ha with rfl | ha'
      · exact hwf
      · exact h.wf a ha'
    · intro a ha
      rcases hmem a ha with rfl | ha'
      · rw [chainPos_head a]
        exact List.nodup_cons.mpr ⟨fun hc => hnew (htlsub _ hc), htlnd⟩
      · exact h.chNodup a ha'
    · intro a ha p hp
      rcases hmem a ha with rfl | ha'
      · rw [chainPos_head a] at hp
        rcases List.mem_cons.mp hp with rfl | hp'
        · exact hself
        · exact hsub p (htlsub p hp')
      · exact hsub p (h.chSub a ha' p hp)
    · intro a ha
      rcases hmem a ha with rfl | ha'
      · exact hstate
      · exact h.stateT a ha'
    · exact hsub s h.sIn
    · rw [he]
      exact h.tNotExp
    · exact h.evo
  · rw [he]
    exact h

theorem nodeFits_mono {rows cols : Nat} {g0 : Grid} {s t : Nat × Nat}
    {f f2 : Frontier} {n : Node} (h : nodeFits rows cols g0 s t f n)
    (hsub : ∀ p ∈ coords f, p ∈ coords f2) :
    nodeFits rows cols g0 s t f2 n := by
  obtain ⟨h1, h2, h3, h4, h5, h6, h7⟩ := h
  exact ⟨h1, h2, h3, h4, h5, h6, fun p hp => hsub p (h7 p hp)⟩

theorem coords_subset_foldl (l : List Node) :
    ∀ (f : Frontier), ∀ p ∈ coords f, p ∈ coords (l.foldl Frontier.add f) := by
  induction l with
  | nil =>
    intro f p hp
    exact hp
  | cons hd tl ih =>
    intro f p hp
    rw [List.foldl_cons]
    exact ih (f.add hd) p (coords_subset_add f hd p hp)

theorem foldl_add_covers (l : List Node) :
    ∀ (f : Frontier), ∀ nd ∈ l, nd.pos ∈ coords (l.foldl Frontier.add f) := by
  induction l with
  | nil =>
    intro f nd hnd
    cases hnd
  | cons hd tl ih =>
    intro f nd hnd
    rw [List.foldl_cons]
    rcases List.mem_cons.mp hnd with rfl | hnd'
    · exact coords_subset_foldl tl (f.add nd) _ (mem_coords_add_self f nd)
    · exact ih (f.add hd) nd hnd'

theorem Inv1.foldl_pres {rows cols : Nat} {g0 : Grid} {s t : Nat × Nat}
    {g : Grid} (l : List Node) :
    ∀ {f : Frontier}, Inv1 rows cols g0 s t g f →
    (∀ nd ∈ l, nd.pos ∉ coords f → nodeFits rows cols g0 s t f nd) →
    Inv1 rows cols g0 s t g (l.foldl Frontier.add f) := by
  induction l with
  | nil =>
    intro f h _
    exact h
  | cons hd tl ih =>
    intro f h hl
    rw [List.foldl_cons]
    refine ih (h.add_pres hd (hl hd (List.mem_cons_self _ _))) ?_
    intro nd hnd hfresh
    have hfresh0 : nd.pos ∉ coords f :=
      fun hc => hfresh (coords_subset_add f hd _ hc)
    exact nodeFits_mono (hl nd (List.mem_cons_of_mem _ hnd) hfresh0)
      (coords_subset_add f hd)

theorem Inv1.remove_pres {rows cols : Nat} {g0 : Grid} {s t : Nat × Nat}
    {g : Grid} {f f' : Frontier} {d : Disc} {m : Node}
    (h : Inv1 rows cols g0 s t g f) (hr : f.remove d = some (m, f'))
    (hmt : m.pos ≠ t) : Inv1 rows cols g0 s t g f' := by
  obtain ⟨_, hexp, hperm⟩ := remove_spec hr
  have hcperm : List.Perm (coords f') (coords f) := hperm.map Node.pos
  have hmem : ∀ a ∈ allNodes f', a ∈ allNodes f :=
    fun a ha => hperm.mem_iff.mp ha
  refine ⟨?_, ?_, ?_, ?_, ?_, ?_, ?_, ?_, ?_, ?_⟩
  · exact hcperm.nodup_iff.mpr h.nodup
  · exact fun a ha => h.bnd a (hmem a ha)
  · exact fun a ha => h.chains a (hmem a ha)
  · exact fun a ha => h.wf a (hmem a ha)
  · exact fun a ha => h.chNodup a (hmem a ha)
  · exact fun a ha p hp => hcperm.mem_iff.mpr (h.chSub a (hmem a ha) p hp)
  · exact fun a ha => h.stateT a (hmem a ha)
  · exact hcperm.mem_iff.mpr h.sIn
  · rw [hexp, List.map_append, List.mem_append]
    rintro (hc | hc)
    · exact h.tNotExp hc
    · rw [List.map_cons, List.map_nil, List.mem_singleton] at hc
      exact hmt hc.symm
  · exact h.evo

/-- Each freshly generated neighbor of an in-frontier node is fit for
`add`. -/
theorem neighbors_fit {rows cols : Nat} {g0 g : Grid} {s t : Nat × Nat}
    {f' : Frontier} {m : Node} (hInv : Inv1 rows cols g0 s t g f')
    (hm : m ∈ allNodes f')
    (hA : ∀ i j, cell g0 i j = START ↔ (i, j) = s)
    (hB : ∀ i j, cell g0 i j = TARGET ↔ (i, j) = t) :
    ∀ nd ∈ get_neighbors rows cols g m, nd.pos ∉ coords f' →
      nodeFits rows cols g0 s t f' nd := by
  intro nd hnd hfresh
  obtain ⟨mv, c, hc, rfl⟩ := mem_get_neighbors.mp hnd
  obtain ⟨hmx, hmy⟩ := hInv.bnd m hm
  have hsound := next_cell_sound hc hmx hmy
  have hopen0 : openCell rows cols g0 c = true := by
    rw [← evolves_openCell hInv.evo rows cols c]
    exact hsound.2
  obtain ⟨hc1, hc2, _⟩ := (openCell_iff _ _ _ _).mp hopen0
  have hcs : c ≠ s := by
    intro hcs
    apply hfresh
    show c ∈ coords f'
    rw [hcs]
    exact hInv.sIn
  have hadj : adjacentB m.pos c = true := by
    rw [Node.pos_def]
    exact hsound.1
  refine ⟨hc1, hc2, ?_, ?_, ?_, ?_, ?_⟩
  · show adjacentB m.pos (c.1, c.2) = true ∧
      openCell rows cols g0 (c.1, c.2) = true ∧ chainOk rows cols g0 s m
    exact ⟨hadj, hopen0, hInv.chains m hm⟩
  · show (cell g c.1 c.2 != START && chainWf m) = true
    rw [Bool.and_eq_true, bne_iff_ne]
    refine ⟨?_, hInv.wf m hm⟩
    rcases hInv.evo c.1 c.2 with he | ⟨_, h2⟩
    · rw [he]
      intro hcA
      exact hcs ((hA c.1 c.2).mp hcA)
    · rw [h2]
      decide
  · show cell g c.1 c.2 = TARGET ↔ ((c.1, c.2) : Nat × Nat) = t
    rw [evolves_target_iff hInv.evo c.1 c.2]
    exact hB c.1 c.2
  · show (chainPos m).Nodup
    exact hInv.chNodup m hm
  · show ∀ p ∈ chainPos m, p ∈ coords f'
    exact hInv.chSub m hm

/-! ### Consequences of spec-side validity -/

theorem mem_cellPositions (g : Grid) (c : Char) (p : Nat × Nat) :
    p ∈ cellPositions g c ↔
      (p.1 < g.length ∧ p.2 < (g.getD p.1 []).length ∧
        cell g p.1 p.2 = c) := by
  unfold cellPositions
  rw [List.mem_flatten]
  constructor
  · rintro ⟨l, hl, hp⟩
    rw [List.mem_map] at hl
    obtain ⟨i, hi, rfl⟩ := hl
    rw [List.mem_map] at hp
    obtain ⟨j, hj, rfl⟩ := hp
    rw [List.mem_filter] at hj
    obtain ⟨hj1, hj2⟩ := hj
    rw [List.mem_range] at hi hj1
    exact ⟨hi, hj1, beq_iff_eq.mp hj2⟩
  · rintro ⟨h1, h2, h3⟩
    refine ⟨((List.range ((g.getD p.1 []).length)).filter (fun j =>
      cell g p.1 j == c)).map (fun j => (p.1, j)), ?_, ?_⟩
    · rw [List.mem_map]
      exact ⟨p.1, List.mem_range.mpr h1, rfl⟩
    · rw [List.mem_map]
      refine ⟨p.2, ?_, rfl⟩
      rw [List.mem_filter]
      exact ⟨List.mem_range.mpr h2, beq_iff_eq.mpr h3⟩

theorem rect_rowlen {g : Grid} {cols : Nat} (h : rectangular g cols = true)
    {i : Nat} (hi : i < g.length) : (g.getD i []).length = cols := by
  unfold rectangular at h
  have hmem : g.getD i [] ∈ g := by
    rw [List.getD_eq_getElem?_getD, List.getElem?_eq_getElem hi,
      Option.getD_some]
    exact List.getElem_mem hi
  exact beq_iff_eq.mp (List.all_eq_true.mp h _ hmem)

/-- The working consequences of `validMaze`: marker cells characterize the
recorded points, which are in bounds and distinct. -/
theorem validMaze_spec (mz : Maze) (h : validMaze mz) :
    (∀ i j, cell mz.maze_arr i j = START ↔ (i, j) = mz.start_point) ∧
    (∀ i j, cell mz.maze_arr i j = TARGET ↔ (i, j) = mz.end_point) ∧
    mz.start_point.1 < mz.rows_count ∧ mz.start_point.2 < mz.cells_count ∧
    mz.end_point.1 < mz.rows_count ∧ mz.end_point.2 < mz.cells_count ∧
    mz.start_point ≠ mz.end_point := by
  obtain ⟨hrows, _, hrect, hA, hB⟩ := h
  have hmemA : mz.start_point ∈ cellPositions mz.maze_arr START := by
    rw [hA]
    exact List.mem_singleton_self _
  have hmemB : mz.end_point ∈ cellPositions mz.maze_arr TARGET := by
    rw [hB]
    exact List.mem_singleton_self _
  obtain ⟨hA1, hA2, hA3⟩ := (mem_cellPositions _ _ _).mp hmemA
  obtain ⟨hB1, hB2, hB3⟩ := (mem_cellPositions _ _ _).mp hmemB
  have hiffA : ∀ i j, cell mz.maze_arr i j = START ↔
      (i, j) = mz.start_point := by
    intro i j
    constructor
    · intro hc
      have hb := bounds_of_cell_ne_wall mz.maze_arr (by rw [hc]; decide)
      have hm : (i, j) ∈ cellPositions mz.maze_arr START :=
        (mem_cellPositions _ _ _).mpr ⟨hb.1, hb.2, hc⟩
      rw [hA] at hm
      exact List.mem_singleton.mp hm
    · intro he
      have hi : i = mz.start_point.1 := congrArg Prod.fst he
      have hj : j = mz.start_point.2 := congrArg Prod.snd he
      rw [hi, hj]
      exact hA3
  have hiffB : ∀ i j, cell mz.maze_arr i j = TARGET ↔
      (i, j) = mz.end_point := by
    intro i j
    constructor
    · intro hc
      have hb := bounds_of_cell_ne_wall mz.maze_arr (by rw [hc]; decide)
      have hm : (i, j) ∈ cellPositions mz.maze_arr TARGET :=
        (mem_cellPositions _ _ _).mpr ⟨hb.1, hb.2, hc⟩
      rw [hB] at hm
      exact List.mem_singleton.mp hm
    · intro he
      have hi : i = mz.end_point.1 := congrArg Prod.fst he
      have hj : j = mz.end_point.2 := congrArg Prod.snd he
      rw [hi, hj]
      exact hB3
  refine ⟨hiffA, hiffB, ?_, ?_, ?_, ?_, ?_⟩
  · rw [hrows]
    exact hA1
  · rw [← rect_rowlen hrect hA1]
    exact hA2
  · rw [hrows]
    exact hB1
  · rw [← rect_rowlen hrect hB1]
    exact hB2
  · intro he
    rw [he] at hA3
    rw [hA3] at hB3
    exact absurd hB3 (by decide)

/-! ### Size bounds and reconstruction totality -/

theorem coords_length_le (R C : Nat) (l : List (Nat × Nat)) (h : l.Nodup)
    (hb : ∀ p ∈ l, p.1 < R ∧ p.2 < C) : l.length ≤ R * C := by
  rw [← List.toFinset_card_of_nodup h]
  have h2 : l.toFinset ⊆ Finset.range R ×ˢ Finset.range C := by
    intro p hp
    rw [List.mem_toFinset] at hp
    rw [Finset.mem_product]
    exact ⟨Finset.mem_range.mpr (hb p hp).1, Finset.mem_range.mpr (hb p hp).2⟩
  calc l.toFinset.card ≤ (Finset.range R ×ˢ Finset.range C).card :=
        Finset.card_le_card h2
    _ = R * C := by simp

theorem allNodes_le {rows cols : Nat} {g0 : Grid} {s t : Nat × Nat}
    {g : Grid} {f : Frontier} (h : Inv1 rows cols g0 s t g f) :
    (allNodes f).length ≤ rows * cols := by
  have hb : ∀ p ∈ coords f, p.1 < rows ∧ p.2 < cols := by
    intro p hp
    rw [coords, List.mem_map] at hp
    obtain ⟨a, ha, rfl⟩ := hp
    have := h.bnd a ha
    rw [Node.pos_def]
    exact this
  have := coords_length_le rows cols (coords f) h.nodup hb
  calc (allNodes f).length = (coords f).length :=
        (List.length_map _ _).symm
    _ ≤ rows * cols := this

theorem applySolutionAux_isSome :
    ∀ (p : Node) (g : Grid), chainWf p = true →
    ∃ g', applySolutionAux g p = some g'
  | .mk s x y a none, g, hwf => by
    have hs : s = START := by
      simpa [chainWf] using hwf
    refine ⟨g, ?_⟩
    unfold applySolutionAux
    rw [if_pos hs]
  | .mk s x y a (some q), g, hwf => by
    simp only [chainWf, Bool.and_eq_true, bne_iff_ne] at hwf
    obtain ⟨g', hg'⟩ := applySolutionAux_isSome q (setCell g x y PATHC) hwf.2
    refine ⟨g', ?_⟩
    unfold applySolutionAux
    rw [if_neg hwf.1]
    exact hg'

theorem apply_solution_isSome {g : Grid} {m : Node} (hwf : chainWf m = true)
    (hs : m.state ≠ START) : ∃ g2, apply_solution g m = some g2 := by
  cases m with
  | mk st x y a p =>
    cases p with
    | none =>
      exfalso
      apply hs
      show st = START
      simpa [chainWf] using hwf
    | some q =>
      simp only [chainWf, Bool.and_eq_true, bne_iff_ne] at hwf
      obtain ⟨g2, hg⟩ := applySolutionAux_isSome q g hwf.2
      refine ⟨g2, ?_⟩
      unfold apply_solution
      show (match (some q : Option Node) with
        | none => none
        | some p => applySolutionAux g p) = some g2
      exact hg

theorem foldl_add_explored (l : List Node) :
    ∀ f : Frontier,
    (l.foldl Frontier.add f).explored_nodes = f.explored_nodes := by
  induction l with
  | nil =>
    intro f
    rfl
  | cons hd tl ih =>
    intro f
    rw [List.foldl_cons, ih, add_explored_eq]

/-! ### The invariant holds after seeding the frontier -/

theorem inv1_init (mz : Maze) (hv : validMaze mz) :
    Inv1 mz.rows_count mz.cells_count mz.maze_arr mz.start_point
      mz.end_point mz.maze_arr
      (Frontier.empty.add (Node.mk
        (cell mz.maze_arr mz.start_point.1 mz.start_point.2)
        mz.start_point.1 mz.start_point.2 none none)) := by
  obtain ⟨hA, _, hs1, hs2, _, _, hst⟩ := validMaze_spec mz hv
  have hcs : cell mz.maze_arr mz.start_point.1 mz.start_point.2 = START :=
    (hA _ _).mpr rfl
  have hadd : Frontier.empty.add (Node.mk
      (cell mz.maze_arr mz.start_point.1 mz.start_point.2)
      mz.start_point.1 mz.start_point.2 none none) =
      ⟨[Node.mk (cell mz.maze_arr mz.start_point.1 mz.start_point.2)
        mz.start_point.1 mz.start_point.2 none none], []⟩ := rfl
  rw [hadd]
  have hmem : ∀ n ∈ allNodes ⟨[Node.mk
      (cell mz.maze_arr mz.start_point.1 mz.start_point.2)
      mz.start_point.1 mz.start_point.2 none none], []⟩,
      n = Node.mk (cell mz.maze_arr mz.start_point.1 mz.start_point.2)
        mz.start_point.1 mz.start_point.2 none none := by
    intro n hn
    simpa [allNodes] using hn
  refine ⟨?_, ?_, ?_, ?_, ?_, ?_, ?_, ?_, ?_, ?_⟩
  · simp [coords, allNodes]
  · intro n hn
    rw [hmem n hn]
    exact ⟨hs1, hs2⟩
  · intro n hn
    rw [hmem n hn]
    show ((mz.start_point.1, mz.start_point.2) : Nat × Nat) = mz.start_point
    rfl
  · intro n hn
    rw [hmem n hn]
    show (cell mz.maze_arr mz.start_point.1 mz.start_point.2 == START) = true
    exact beq_iff_eq.mpr hcs
  · intro n hn
    rw [hmem n hn]
    show ([((mz.start_point.1, mz.start_point.2) : Nat × Nat)]).Nodup
    exact List.nodup_singleton _
  · intro n hn p hp
    rw [hmem n hn] at hp
    have hp' : p = ((mz.start_point.1, mz.start_point.2) : Nat × Nat) := by
      simpa [chainPos] using hp
    rw [hp']
    simp [coords, allNodes, Node.pos]
  · intro n hn
    rw [hmem n hn]
    constructor
    · intro hc
      have : START = TARGET := by
        rw [← hcs]
        exact hc
      exact absurd this (by decide)
    · intro hc
      exfalso
      apply hst
      have : ((mz.start_point.1, mz.start_point.2) : Nat × Nat) =
          mz.end_point := hc
      exact this ▸ rfl
  · simp [coords, allNodes, Node.pos]
  · simp
  · exact evolves_refl _

/-! ### Termination of the loop within the grid-size pop budget -/

theorem solveLoop_ok {rows cols : Nat} {g0 : Grid} {s t : Nat × Nat}
    (d : Disc)
    (hA : ∀ i j, cell g0 i j = START ↔ (i, j) = s)
    (hB : ∀ i j, cell g0 i j = TARGET ↔ (i, j) = t) :
    ∀ (fuel : Nat) (g : Grid) (f : Frontier) (st : Nat),
    Inv1 rows cols g0 s t g f →
    rows * cols + 1 ≤ fuel + f.explored_nodes.length →
    ∃ r, solveLoop rows cols d fuel g f st = .ok r ∧
      r.2.2.2 + f.explored_nodes.length ≤ st + rows * cols := by
  intro fuel
  induction fuel with
  | zero =>
    intro g f st hInv hfuel
    exfalso
    have h1 := allNodes_le hInv
    have h2 : (allNodes f).length =
        f.nodes.length + f.explored_nodes.length := by
      simp [allNodes]
    omega
  | succ fuel ih =>
    intro g f st hInv hfuel
    have h1 := allNodes_le hInv
    have h2 : (allNodes f).length =
        f.nodes.length + f.explored_nodes.length := by
      simp [allNodes]
    rw [solveLoop]
    by_cases he : f.is_empty
    · rw [if_pos he]
      refine ⟨(none, g, f, st), rfl, ?_⟩
      show st + f.explored_nodes.length ≤ st + rows * cols
      omega
    · rw [if_neg he]
      obtain ⟨m, f', hr⟩ :=
        remove_isSome f d (Bool.not_eq_true _ ▸ eq_false_of_ne_true he)
      rw [hr]
      dsimp only
      have hm_in_f : m ∈ allNodes f := by
        rw [allNodes, List.mem_append]
        exact .inl (remove_mem_nodes hr)
      have hnodes_pos : 1 ≤ f.nodes.length :=
        List.length_pos.mpr (List.ne_nil_of_mem (remove_mem_nodes hr))
      have hexp' : f'.explored_nodes = f.explored_nodes ++ [m] :=
        (remove_spec hr).2.1
      have hwfm : chainWf m = true := hInv.wf m hm_in_f
      by_cases ht : m.state = TARGET
      · rw [if_pos ht]
        have hms : m.state ≠ START := by
          rw [ht]
          decide
        obtain ⟨g2, hg2⟩ := apply_solution_isSome hwfm hms
        rw [hg2]
        refine ⟨(some m, g2, f', st + 1), rfl, ?_⟩
        show st + 1 + f.explored_nodes.length ≤ st + rows * cols
        omega
      · rw [if_neg ht]
        have hmt : m.pos ≠ t := fun hc => ht ((hInv.stateT m hm_in_f).mpr hc)
        have hInv2 : Inv1 rows cols g0 s t (markExplored g m.x m.y) f' :=
          (hInv.remove_pres hr hmt).mark m.x m.y
        have hm_in_f' : m ∈ allNodes f' := by
          rw [allNodes, hexp', List.mem_append, List.mem_append]
          exact .inr (.inr (List.mem_singleton_self m))
        have hInv3 := Inv1.foldl_pres
          (get_neighbors rows cols (markExplored g m.x m.y) m) hInv2
          (neighbors_fit hInv2 hm_in_f' hA hB)
        have hexp_fold : ((get_neighbors rows cols (markExplored g m.x m.y)
            m).foldl Frontier.add f').explored_nodes = f'.explored_nodes :=
          foldl_add_explored _ f'
        obtain ⟨r, hrr, hrb⟩ := ih (markExplored g m.x m.y) _ (st + 1) hInv3
          (by rw [hexp_fold, hexp', List.length_append]; simp; omega)
        refine ⟨r, hrr, ?_⟩
        rw [hexp_fold, hexp', List.length_append] at hrb
        simp at hrb
        omega

/-- C2: for every valid grid and either discipline, `solve` terminates and
the number of pops — read off as the growth of the step counter — is at
most rows times cols. -/
theorem solve_terminates (mz : Maze) (d : Disc) (hv : validMaze mz)
    (fuel : Nat) (hf : mz.rows_count * mz.cells_count < fuel) :
    ∃ r, Maze.solve mz d Frontier.empty fuel = .ok r ∧
      r.2.2.2 ≤ mz.steps + mz.rows_count * mz.cells_count := by
  obtain ⟨hA, hB, _, _, _, _, _⟩ := validMaze_spec mz hv
  unfold Maze.solve
  obtain ⟨r, h1, h2⟩ := solveLoop_ok d hA hB fuel mz.maze_arr _ mz.steps
    (inv1_init mz hv) (by simp [Frontier.empty, Frontier.add, nodeMem]; omega)
  refine ⟨r, h1, ?_⟩
  simpa [Frontier.empty, Frontier.add, nodeMem] using h2

/-! ### The adjacent-target scenario -/

theorem applySolutionAux_start (g : Grid) (r : Node) (hrs : r.state = START) :
    applySolutionAux g r = some g := by
  cases r with
  | mk s x y a p =>
    have hs : s = START := hrs
    unfold applySolutionAux
    rw [if_pos hs]

theorem apply_solution_of_root_parent {g : Grid} {m r : Node}
    (hpar : m.parent = some r) (hrs : r.state = START) :
    apply_solution g m = some g := by
  unfold apply_solution
  rw [hpar]
  exact applySolutionAux_start g r hrs

theorem depth_parent {n p : Node} (h : n.parent = some p) :
    n.depth = p.depth + 1 := by
  cases n with
  | mk s x y a pr =>
    cases pr with
    | none => exact absurd h (by simp [Node.parent])
    | some q =>
      have hq : q = p := by
        simpa [Node.parent] using h
      subst hq
      rfl

theorem depth_root {n : Node} (h : n.parent = none) : n.depth = 0 := by
  cases n with
  | mk s x y a pr =>
    cases pr with
    | none => rfl
    | some q => exact absurd h (by simp [Node.parent])

theorem mem_get_neighbors_parent {rows cols : Nat} {g : Grid} {m nd : Node}
    (h : nd ∈ get_neighbors rows cols g m) :
    nd.parent = some m ∧ nd.depth = m.depth + 1 := by
  obtain ⟨mv, c, _, rfl⟩ := mem_get_neighbors.mp h
  exact ⟨rfl, rfl⟩

theorem remove_singleton (n : Node) (e : List Node) (d : Disc) :
    (⟨[n], e⟩ : Frontier).remove d = some (n, ⟨[], e ++ [n]⟩) := by
  cases d <;> rfl

theorem foldl_add_decomp (l : List Node) :
    ∀ f : Frontier, ∃ newl : List Node,
    (l.foldl Frontier.add f).nodes = f.nodes ++ newl ∧
    ∀ nd ∈ newl, nd ∈ l ∧ nd.pos ∉ coords f := by
  induction l with
  | nil =>
    intro f
    exact ⟨[], by simp, by simp⟩
  | cons hd tl ih =>
    intro f
    rw [List.foldl_cons]
    rcases add_eq_or f hd with ⟨hnew, he⟩ | ⟨_, he⟩
    · obtain ⟨newl, h1, h3⟩ := ih (f.add hd)
      refine ⟨hd :: newl, ?_, ?_⟩
      · rw [h1, he]
        show (f.nodes ++ [hd]) ++ newl = f.nodes ++ hd :: newl
        rw [List.append_assoc]
        rfl
      · intro nd hnd
        rcases List.mem_cons.mp hnd with rfl | hnd'
        · exact ⟨List.mem_cons_self _ _, hnew⟩
        · obtain ⟨ha, hb⟩ := h3 nd hnd'
          exact ⟨List.mem_cons_of_mem _ ha,
            fun hc => hb (coords_subset_add f hd _ hc)⟩
    · obtain ⟨newl, h1, h3⟩ := ih f
      rw [he]
      refine ⟨newl, h1, ?_⟩
      intro nd hnd
      obtain ⟨ha, hb⟩ := h3 nd hnd
      exact ⟨List.mem_cons_of_mem _ ha, hb⟩

theorem mem_allNodes_foldl {l : List Node} {f : Frontier} {n : Node}
    (h : n ∈ allNodes (l.foldl Frontier.add f)) :
    n ∈ allNodes f ∨ (n ∈ l ∧ n.pos ∉ coords f) := by
  obtain ⟨newl, h1, h3⟩ := foldl_add_decomp l f
  rw [allNodes, h1, foldl_add_explored, List.append_assoc,
    List.mem_append] at h
  rcases h with h | h
  · exact .inl (by rw [allNodes, List.mem_append]; exact .inl h)
  · rw [List.mem_append] at h
    rcases h with h | h
    · exact .inr (h3 n h)
    · exact .inl (by rw [allNodes, List.mem_append]; exact .inr h)

/-- Once the target coordinate sits in the frontier with a root parent, the
loop necessarily succeeds with a one-move goal chain and only
explored-marking grid changes. -/
theorem solveLoop_adjacent {rows cols : Nat} {g0 : Grid} {s t : Nat × Nat}
    (d : Disc)
    (hA : ∀ i j, cell g0 i j = START ↔ (i, j) = s)
    (hB : ∀ i j, cell g0 i j = TARGET ↔ (i, j) = t) :
    ∀ (fuel : Nat) (g : Grid) (f : Frontier) (st : Nat),
    Inv1 rows cols g0 s t g f →
    t ∈ coords f →
    (∀ n ∈ allNodes f, n.pos = t →
      ∃ r, n.parent = some r ∧ r.state = START ∧ r.parent = none) →
    rows * cols + 1 ≤ fuel + f.explored_nodes.length →
    ∃ goal g' f' st', solveLoop rows cols d fuel g f st =
        .ok (some goal, g', f', st') ∧
      goal.pos = t ∧ goal.depth = 1 ∧ st + 1 ≤ st' ∧ evolves g g' := by
  intro fuel
  induction fuel with
  | zero =>
    intro g f st hInv _ _ hfuel
    exfalso
    have h1 := allNodes_le hInv
    have h2 : (allNodes f).length =
        f.nodes.length + f.explored_nodes.length := by
      simp [allNodes]
    omega
  | succ fuel ih =>
    intro g f st hInv htmem htp hfuel
    have hne : f.is_empty = false := by
      cases hcase : f.is_empty
      · rfl
      · exfalso
        have hnil : f.nodes = [] := by
          unfold Frontier.is_empty at hcase
          exact List.length_eq_zero.mp (by simpa using hcase)
        rw [coords, allNodes, hnil] at htmem
        simp only [List.nil_append] at htmem
        exact hInv.tNotExp htmem
    rw [solveLoop, if_neg (by rw [hne]; exact Bool.false_ne_true)]
    obtain ⟨m, f', hr⟩ := remove_isSome f d hne
    rw [hr]
    dsimp only
    have hm_in_f : m ∈ allNodes f := by
      rw [allNodes, List.mem_append]
      exact .inl (remove_mem_nodes hr)
    have hexp' := (remove_spec hr).2.1
    have hperm := (remove_spec hr).2.2
    by_cases ht : m.state = TARGET
    · rw [if_pos ht]
      have hmt : m.pos = t := (hInv.stateT m hm_in_f).mp ht
      obtain ⟨r, hpar, hrs, hrp⟩ := htp m hm_in_f hmt
      rw [apply_solution_of_root_parent hpar hrs]
      refine ⟨m, markExplored g m.x m.y, f', st + 1, rfl, hmt, ?_,
        by omega, markExplored_evolves g m.x m.y⟩
      rw [depth_parent hpar, depth_root hrp]
    · rw [if_neg ht]
      have hmt : m.pos ≠ t := fun hc => ht ((hInv.stateT m hm_in_f).mpr hc)
      have hInv2 : Inv1 rows cols g0 s t (markExplored g m.x m.y) f' :=
        (hInv.remove_pres hr hmt).mark m.x m.y
      have hm_in_f' : m ∈ allNodes f' := by
        rw [allNodes, hexp', List.mem_append, List.mem_append]
        exact .inr (.inr (List.mem_singleton_self m))
      have hInv3 := Inv1.foldl_pres
        (get_neighbors rows cols (markExplored g m.x m.y) m) hInv2
        (neighbors_fit hInv2 hm_in_f' hA hB)
      have hcoords' : t ∈ coords f' := (hperm.map Node.pos).mem_iff.mpr htmem
      have htmem2 : t ∈ coords ((get_neighbors rows cols
          (markExplored g m.x m.y) m).foldl Frontier.add f') :=
        coords_subset_foldl _ f' t hcoords'
      have htp2 : ∀ n ∈ allNodes ((get_neighbors rows cols
          (markExplored g m.x m.y) m).foldl Frontier.add f'), n.pos = t →
          ∃ r, n.parent = some r ∧ r.state = START ∧ r.parent = none := by
        intro n hn hnt
        rcases mem_allNodes_foldl hn with hn' | ⟨_, hfresh⟩
        · exact htp n (hperm.mem_iff.mp hn') hnt
        · exact absurd hcoords' (hnt ▸ hfresh)
      have hexp_fold := foldl_add_explored
        (get_neighbors rows cols (markExplored g m.x m.y) m) f'
      obtain ⟨goal, g', f'', st', hrr, hgt, hgd, hst2, hevo⟩ :=
        ih (markExplored g m.x m.y) _ (st + 1) hInv3 htmem2 htp2
          (by rw [hexp_fold, hexp', List.length_append]; simp; omega)
      exact ⟨goal, g', f'', st', hrr, hgt, hgd, by omega,
        evolves_trans (markExplored_evolves g m.x m.y) hevo⟩

/-- Witness for C2 on a concrete one-row maze. -/
theorem solve_terminates_witness :
    validMaze demoMaze ∧ demoMaze.rows_count * demoMaze.cells_count < 4 ∧
    ∃ r, Maze.solve demoMaze Disc.queue Frontier.empty 4 = .ok r ∧
      r.2.2.2 ≤ demoMaze.steps + demoMaze.rows_count * demoMaze.cells_count :=
  ⟨by decide, by decide,
    solve_terminates demoMaze Disc.queue (by decide) 4 (by decide)⟩

/-- C9 (amended): on a valid grid whose start and target are adjacent,
either discipline finds the target with a one-move goal chain — so no path
marker is placed and the final grid differs from the initial one by
explored marks on open cells only — and the step counter ends at least two
above its initial value, but not necessarily exactly two above. -/
theorem solve_adjacent_one_move (mz : Maze) (d : Disc) (hv : validMaze mz)
    (hadj : adjacentB mz.start_point mz.end_point = true)
    (fuel : Nat) (hf : mz.rows_count * mz.cells_count < fuel) :
    ∃ goal g' f' st',
      Maze.solve mz d Frontier.empty fuel = .ok (some goal, g', f', st') ∧
      goal.pos = mz.end_point ∧ goal.depth = 1 ∧ mz.steps + 2 ≤ st' ∧
      evolves mz.maze_arr g' := by
  obtain ⟨hA, hB, hs1, hs2, ht1, ht2, hst⟩ := validMaze_spec mz hv
  have hcs : cell mz.maze_arr mz.start_point.1 mz.start_point.2 = START :=
    (hA _ _).mpr rfl
  have hct : cell mz.maze_arr mz.end_point.1 mz.end_point.2 = TARGET :=
    (hB _ _).mpr rfl
  cases fuel with
  | zero => omega
  | succ k =>
    obtain ⟨root, hroot⟩ : ∃ root, root = Node.mk
        (cell mz.maze_arr mz.start_point.1 mz.start_point.2)
        mz.start_point.1 mz.start_point.2 none none := ⟨_, rfl⟩
    have hsolve : Maze.solve mz d Frontier.empty (k + 1) =
        solveLoop mz.rows_count mz.cells_count d (k + 1) mz.maze_arr
          (Frontier.empty.add root) mz.steps := by
      rw [hroot]
      rfl
    have hrx : root.x = mz.start_point.1 := by
      rw [hroot]
      rfl
    have hry : root.y = mz.start_point.2 := by
      rw [hroot]
      rfl
    have hrpos : root.pos = mz.start_point := by
      rw [hroot]
      rfl
    have hrstate : root.state =
        cell mz.maze_arr mz.start_point.1 mz.start_point.2 := by
      rw [hroot]
      rfl
    have hrparent : root.parent = none := by
      rw [hroot]
      rfl
    have hf0 : Frontier.empty.add root = ⟨[root], []⟩ := rfl
    have hInv0 : Inv1 mz.rows_count mz.cells_count mz.maze_arr
        mz.start_point mz.end_point mz.maze_arr ⟨[root], []⟩ := by
      rw [← hf0, hroot]
      exact inv1_init mz hv
    have hemp : (⟨[root], []⟩ : Frontier).is_empty = false := rfl
    have hrem := remove_singleton root [] d
    have hnA : ¬(root.state = TARGET) := by
      rw [hrstate, hcs]
      decide
    have hrt : root.pos ≠ mz.end_point := by
      rw [hrpos]
      exact hst
    have hInv2 : Inv1 mz.rows_count mz.cells_count mz.maze_arr
        mz.start_point mz.end_point
        (markExplored mz.maze_arr root.x root.y) ⟨[], [root]⟩ :=
      (hInv0.remove_pres hrem hrt).mark root.x root.y
    have hroot_in : root ∈ allNodes ⟨[], [root]⟩ := by
      simp [allNodes]
    have hInv3 := Inv1.foldl_pres
      (get_neighbors mz.rows_count mz.cells_count
        (markExplored mz.maze_arr root.x root.y) root) hInv2
      (neighbors_fit hInv2 hroot_in hA hB)
    have htopen : openCell mz.rows_count mz.cells_count
        (markExplored mz.maze_arr root.x root.y) mz.end_point = true := by
      rw [evolves_openCell (markExplored_evolves mz.maze_arr root.x root.y)]
      refine (openCell_iff _ _ _ _).mpr ⟨ht1, ht2, ?_⟩
      rw [hct]
      decide
    have htnb : mz.end_point ∈ (get_neighbors mz.rows_count mz.cells_count
        (markExplored mz.maze_arr root.x root.y) root).map Node.pos := by
      refine (pos_mem_get_neighbors (by rw [hrx]; exact hs1)
        (by rw [hry]; exact hs2) mz.end_point).mpr ⟨?_, htopen⟩
      rw [hrpos]
      exact hadj
    have htmem : mz.end_point ∈ coords
        ((get_neighbors mz.rows_count mz.cells_count
          (markExplored mz.maze_arr root.x root.y) root).foldl
          Frontier.add ⟨[], [root]⟩) := by
      rw [List.mem_map] at htnb
      obtain ⟨nd, hnd, hpos⟩ := htnb
      rw [← hpos]
      exact foldl_add_covers _ _ nd hnd
    have htp : ∀ n ∈ allNodes ((get_neighbors mz.rows_count mz.cells_count
        (markExplored mz.maze_arr root.x root.y) root).foldl
        Frontier.add ⟨[], [root]⟩), n.pos = mz.end_point →
        ∃ r, n.parent = some r ∧ r.state = START ∧ r.parent = none := by
      intro n hn hnt
      rcases mem_allNodes_foldl hn with hn' | ⟨hmemn, _⟩
      · have hnr : n = root := by
          simpa [allNodes] using hn'
        rw [hnr] at hnt
        exact absurd hnt hrt
      · obtain ⟨hpar, _⟩ := mem_get_neighbors_parent hmemn
        refine ⟨root, hpar, ?_, hrparent⟩
        rw [hrstate]
        exact hcs
    have hfuel2 : mz.rows_count * mz.cells_count + 1 ≤ k +
        ((get_neighbors mz.rows_count mz.cells_count
          (markExplored mz.maze_arr root.x root.y) root).foldl
          Frontier.add ⟨[], [root]⟩).explored_nodes.length := by
      rw [foldl_add_explored]
      show mz.rows_count * mz.cells_count + 1 ≤ k + 1
      omega
    obtain ⟨goal, g', f', st', hrr, hgt, hgd, hst2, hevo⟩ :=
      solveLoop_adjacent d hA hB k
        (markExplored mz.maze_arr root.x root.y) _ (mz.steps + 1)
        hInv3 htmem htp hfuel2
    refine ⟨goal, g', f', st', ?_, hgt, hgd, by omega,
      evolves_trans (markExplored_evolves mz.maze_arr root.x root.y) hevo⟩
    rw [hsolve, solveLoop, hf0, if_neg (by rw [hemp]; exact Bool.false_ne_true),
      hrem]
    dsimp only
    rw [if_neg hnA]
    exact hrr

/-- C9 counterexample: on the valid one-row grid holding open, start and
target cells in that order, start and target are adjacent, yet the queue
discipline returns with step counter 3, not 2, because the open LEFT
neighbor is enqueued before the target and popped first. -/
theorem adjacent_steps_not_two :
    validMaze cexMaze ∧
    adjacentB cexMaze.start_point cexMaze.end_point = true ∧
    cexMaze.steps = 0 ∧
    (∃ goal g' f', Maze.solve cexMaze Disc.queue Frontier.empty 4 =
      .ok (some goal, g', f', 3)) ∧ (3 : Nat) ≠ 2 :=
  ⟨by decide, by decide, rfl, ⟨_, _, _, rfl⟩, by decide⟩

/-! ### Breadth-first machinery for the queue discipline -/

theorem reachN_zero {rows cols : Nat} {g : Grid} {s p : Nat × Nat}
    (h : ReachN rows cols g s 0 p) : p = s := by
  cases h
  rfl

theorem reachN_succ_inv {rows cols : Nat} {g : Grid} {s q : Nat × Nat}
    {k : Nat} (h : ReachN rows cols g s (k + 1) q) :
    ∃ p, ReachN rows cols g s k p ∧ adjacentB p q = true ∧
      openCell rows cols g q = true := by
  cases h with
  | step h1 h2 h3 => exact ⟨_, h1, h2, h3⟩

theorem chainOk_reach {rows cols : Nat} {g : Grid} {s : Nat × Nat} :
    ∀ (n : Node), chainOk rows cols g s n →
    ReachN rows cols g s n.depth n.pos
  | .mk st x y a none, h => by
    have hp : ((x, y) : Nat × Nat) = s := h
    show ReachN rows cols g s 0 (x, y)
    rw [hp]
    exact ReachN.refl
  | .mk st x y a (some p), h => by
    obtain ⟨hadj, hopen, hok⟩ := h
    show ReachN rows cols g s (p.depth + 1) (x, y)
    exact ReachN.step (chainOk_reach p hok) hadj hopen

theorem remove_queue_spec {f f' : Frontier} {m : Node}
    (h : f.remove Disc.queue = some (m, f')) :
    f.nodes = m :: f'.nodes ∧
    f'.explored_nodes = f.explored_nodes ++ [m] := by
  obtain ⟨ns, ex⟩ := f
  cases ns with
  | nil =>
    unfold Frontier.remove at h
    exact absurd h (by simp)
  | cons a tl =>
    unfold Frontier.remove at h
    simp only [Option.some.injEq, Prod.mk.injEq] at h
    obtain ⟨rfl, rfl⟩ := h
    exact ⟨rfl, rfl⟩

theorem pairwise_le_of_all_eq {l : List Node} {D : Nat}
    (h : ∀ a ∈ l, a.depth = D) :
    l.Pairwise (fun a b => a.depth ≤ b.depth) := by
  induction l with
  | nil => exact List.Pairwise.nil
  | cons hd tl ih =>
    refine List.Pairwise.cons ?_ (ih (fun a ha => h a (List.mem_cons_of_mem _ ha)))
    intro b hb
    rw [h hd (List.mem_cons_self _ _), h b (List.mem_cons_of_mem _ hb)]

/-- Below the queue head's level, every reachable coordinate is already in
the frontier. -/
theorem reachQ_mem {rows cols : Nat} {g0 : Grid} {s t : Nat × Nat}
    {g : Grid} {f : Frontier} (hInv : Inv1 rows cols g0 s t g f)
    (hQ : InvQ rows cols g0 s f) {hd : Node}
    (hhd : f.nodes.head? = some hd) {p : Nat × Nat} {k : Nat}
    (hreach : ReachN rows cols g0 s k p) (hk : k ≤ hd.depth) :
    p ∈ coords f := by
  have hmemhd : hd ∈ f.nodes.head? := hhd
  rcases Nat.lt_or_ge k hd.depth with hlt | hge
  · have := hQ.levels hd hmemhd p k hreach hlt
    rw [coords, allNodes, List.map_append, List.mem_append]
    exact .inr this
  · cases k with
    | zero =>
      rw [reachN_zero hreach]
      exact hInv.sIn
    | succ j =>
      obtain ⟨p', hp', hadj, hopen⟩ := reachN_succ_inv hreach
      have hj : j < hd.depth := by omega
      have hpe := hQ.levels hd hmemhd p' j hp' hj
      rw [List.mem_map] at hpe
      obtain ⟨m', hm', hm'pos⟩ := hpe
      refine hQ.closed m' hm' p ?_ hopen
      rw [hm'pos]
      exact hadj

/-- With an empty pending list, every reachable coordinate is explored. -/
theorem reach_empty_explored {rows cols : Nat} {g0 : Grid} {s t : Nat × Nat}
    {g : Grid} {f : Frontier} (hInv : Inv1 rows cols g0 s t g f)
    (hQ : InvQ rows cols g0 s f) (hnil : f.nodes = []) {p : Nat × Nat}
    {k : Nat} (h : ReachN rows cols g0 s k p) : p ∈ coords f := by
  induction h with
  | refl => exact hInv.sIn
  | step h1 hadj hopen ih =>
    rename_i k' p' q'
    have hpe : p' ∈ f.explored_nodes.map Node.pos := by
      rw [coords, allNodes, hnil, List.nil_append] at ih
      exact ih
    rw [List.mem_map] at hpe
    obtain ⟨m', hm', hm'pos⟩ := hpe
    refine hQ.closed m' hm' q' ?_ hopen
    rw [hm'pos]
    exact hadj

/-- One continue-iteration of the queue loop preserves the breadth-first
invariant. -/
theorem invQ_step {rows cols : Nat} {g0 : Grid} {s t : Nat × Nat} {g : Grid}
    {f f' : Frontier} {m : Node}
    (hInv : Inv1 rows cols g0 s t g f) (hQ : InvQ rows cols g0 s f)
    (hr : f.remove Disc.queue = some (m, f')) :
    InvQ rows cols g0 s ((get_neighbors rows cols (markExplored g m.x m.y)
      m).foldl Frontier.add f') := by
  obtain ⟨hq, hexp⟩ := remove_queue_spec hr
  obtain ⟨nbrs, hnbrs⟩ :
      ∃ l, l = get_neighbors rows cols (markExplored g m.x m.y) m := ⟨_, rfl⟩
  rw [← hnbrs]
  obtain ⟨newl, hnodes2, hnewl⟩ := foldl_add_decomp nbrs f'
  have hexp2 := foldl_add_explored nbrs f'
  have hm_in_f : m ∈ allNodes f := by
    rw [allNodes, List.mem_append, hq]
    exact .inl (List.mem_cons_self _ _)
  have hmhd : f.nodes.head? = some m := by
    rw [hq]
    rfl
  have hperm' := (remove_spec hr).2.2
  have hcsets : ∀ p, p ∈ coords f' ↔ p ∈ coords f :=
    fun p => (hperm'.map Node.pos).mem_iff
  have hsub2 := coords_subset_foldl nbrs f'
  have hdepths : ∀ nd ∈ nbrs, nd.depth = m.depth + 1 := by
    intro nd hnd
    rw [hnbrs] at hnd
    exact (mem_get_neighbors_parent hnd).2
  have hrest_span : ∀ n ∈ f'.nodes, n.depth ≤ m.depth + 1 := by
    intro n hn
    refine hQ.span m hmhd n ?_
    rw [hq]
    exact List.mem_cons_of_mem _ hn
  have hsorted_rest : f'.nodes.Pairwise (fun a b => a.depth ≤ b.depth) := by
    have hs := hQ.sorted
    rw [hq] at hs
    exact hs.of_cons
  have hrest_ge : ∀ n ∈ f'.nodes, m.depth ≤ n.depth := by
    intro n hn
    have hs := hQ.sorted
    rw [hq] at hs
    exact List.rel_of_pairwise_cons hs hn
  have hnewl_depth : ∀ nd ∈ newl, nd.depth = m.depth + 1 :=
    fun nd hnd => hdepths nd (hnewl nd hnd).1
  refine ⟨?_, ?_, ?_, ?_, ?_⟩
  · -- minimal
    intro n hn k hreach
    rcases mem_allNodes_foldl hn with hn' | ⟨hmemn, hfresh⟩
    · exact hQ.minimal n (hperm'.mem_iff.mp hn') k hreach
    · rw [hdepths n hmemn]
      by_contra hlt
      push_neg at hlt
      have hmemc : n.pos ∈ coords f :=
        reachQ_mem hInv hQ hmhd hreach (by omega)
      exact hfresh ((hcsets n.pos).mpr hmemc)
  · -- sorted
    rw [hnodes2, List.pairwise_append]
    refine ⟨hsorted_rest, pairwise_le_of_all_eq hnewl_depth, ?_⟩
    intro a ha b hb
    rw [hnewl_depth b hb]
    exact hrest_span a ha
  · -- span
    intro h2 hh2 n hn
    rw [hnodes2] at hh2 hn
    have hh2mem : h2 ∈ f'.nodes ++ newl := List.mem_of_mem_head? hh2
    have hh2ge : m.depth ≤ h2.depth := by
      rcases List.mem_append.mp hh2mem with h | h
      · exact hrest_ge _ h
      · rw [hnewl_depth _ h]
        omega
    have hnle : n.depth ≤ m.depth + 1 := by
      rcases List.mem_append.mp hn with h | h
      · exact hrest_span _ h
      · exact (hnewl_depth _ h).le
    omega
  · -- closed
    intro m' hm' q hadj hopen
    rw [hexp2, hexp] at hm'
    rcases List.mem_append.mp hm' with h | h
    · exact hsub2 q ((hcsets q).mpr (hQ.closed m' h q hadj hopen))
    · have hm'm : m' = m := List.mem_singleton.mp h
      subst hm'm
      have hbnd := hInv.bnd m' hm_in_f
      have hopen1 : openCell rows cols (markExplored g m'.x m'.y) q = true := by
        rw [evolves_openCell (evolves_trans hInv.evo
          (markExplored_evolves g m'.x m'.y)) rows cols q]
        exact hopen
      have hqin : q ∈ nbrs.map Node.pos := by
        rw [hnbrs]
        exact (pos_mem_get_neighbors hbnd.1 hbnd.2 q).mpr ⟨hadj, hopen1⟩
      rw [List.mem_map] at hqin
      obtain ⟨nd, hnd, hpos⟩ := hqin
      rw [← hpos]
      exact foldl_add_covers nbrs f' nd hnd
  · -- levels
    intro h2 hh2 p k hreach hk
    rw [hnodes2] at hh2
    have hh2mem : h2 ∈ f'.nodes ++ newl := List.mem_of_mem_head? hh2
    have hh2le : h2.depth ≤ m.depth + 1 := by
      rcases List.mem_append.mp hh2mem with h | h
      · exact hrest_span _ h
      · exact (hnewl_depth _ h).le
    rw [hexp2, hexp, List.map_append, List.mem_append]
    rcases Nat.lt_or_ge k m.depth with hlt | hge2
    · exact .inl (hQ.levels m hmhd p k hreach hlt)
    · have hmem_c : p ∈ coords f := reachQ_mem hInv hQ hmhd hreach (by omega)
      rw [coords, allNodes, List.map_append, List.mem_append] at hmem_c
      rcases hmem_c with hc | hc
      · rw [hq, List.map_cons] at hc
        rcases List.mem_cons.mp hc with hc' | hc'
        · refine .inr ?_
          rw [List.map_cons, List.map_nil, hc']
          exact List.mem_singleton_self _
        · exfalso
          rw [List.mem_map] at hc'
          obtain ⟨nd, hnd, hndpos⟩ := hc'
          have hnd_in : nd ∈ allNodes f := by
            rw [allNodes, List.mem_append, hq]
            exact .inl (List.mem_cons_of_mem _ hnd)
          have hmin : nd.depth ≤ k :=
            hQ.minimal nd hnd_in k (hndpos ▸ hreach)
          cases hrest : f'.nodes with
          | nil =>
            rw [hrest] at hnd
            cases hnd
          | cons c rest2 =>
            have hh2c : h2 = c := by
              rw [hrest] at hh2
              exact (by simpa using hh2 : c = h2).symm
            have hcle : c.depth ≤ nd.depth := by
              rw [hrest] at hsorted_rest hnd
              rcases List.mem_cons.mp hnd with rfl | hnd'
              · exact Nat.le_refl _
              · exact List.rel_of_pairwise_cons hsorted_rest hnd'
            rw [hh2c] at hk
            omega
      · exact .inl hc

/-- The breadth-first invariant holds after seeding the frontier. -/
theorem invQ_init (mz : Maze) :
    InvQ mz.rows_count mz.cells_count mz.maze_arr mz.start_point
      (Frontier.empty.add (Node.mk
        (cell mz.maze_arr mz.start_point.1 mz.start_point.2)
        mz.start_point.1 mz.start_point.2 none none)) := by
  obtain ⟨root, hroot⟩ : ∃ r, r = Node.mk
      (cell mz.maze_arr mz.start_point.1 mz.start_point.2)
      mz.start_point.1 mz.start_point.2 none none := ⟨_, rfl⟩
  rw [← hroot]
  have hf0 : Frontier.empty.add root = ⟨[root], []⟩ := rfl
  rw [hf0]
  have hdep : root.depth = 0 := by
    rw [hroot]
    rfl
  refine ⟨?_, ?_, ?_, ?_, ?_⟩
  · intro n hn k _
    have hn' : n = root := by
      simpa [allNodes] using hn
    rw [hn', hdep]
    exact Nat.zero_le k
  · exact List.pairwise_singleton _ _
  · intro h hh n hn
    have hn' : n = root := by
      simpa using hn
    have hh' : h = root := by
      have h2 : some root = some h := hh
      exact ((Option.some.injEq _ _).mp h2).symm
    rw [hn', hh']
    exact Nat.le_succ _
  · intro m' hm'
    exact absurd hm' (List.not_mem_nil m')
  · intro h hh p k _ hk
    have hh' : h = root := by
      have h2 : some root = some h := hh
      exact ((Option.some.injEq _ _).mp h2).symm
    rw [hh', hdep] at hk
    exact absurd hk (Nat.not_lt_zero k)

/-- With the queue discipline, a reachable target is necessarily found, and
the popped goal node's chain length is the true shortest distance. -/
theorem solveLoopQ_finds {rows cols : Nat} {g0 : Grid} {s t : Nat × Nat}
    (hA : ∀ i j, cell g0 i j = START ↔ (i, j) = s)
    (hB : ∀ i j, cell g0 i j = TARGET ↔ (i, j) = t)
    (hreach : ∃ k, ReachN rows cols g0 s k t) :
    ∀ (fuel : Nat) (g : Grid) (f : Frontier) (st : Nat),
    Inv1 rows cols g0 s t g f → InvQ rows cols g0 s f →
    rows * cols + 1 ≤ fuel + f.explored_nodes.length →
    ∃ goal g' f' st', solveLoop rows cols Disc.queue fuel g f st =
        .ok (some goal, g', f', st') ∧
      goal.pos = t ∧ ReachN rows cols g0 s goal.depth t ∧
      ∀ k, ReachN rows cols g0 s k t → goal.depth ≤ k := by
  intro fuel
  induction fuel with
  | zero =>
    intro g f st hInv _ hfuel
    exfalso
    have h1 := allNodes_le hInv
    have h2 : (allNodes f).length =
        f.nodes.length + f.explored_nodes.length := by
      simp [allNodes]
    omega
  | succ fuel ih =>
    intro g f st hInv hQ hfuel
    have hne : f.is_empty = false := by
      cases hcase : f.is_empty
      · rfl
      · exfalso
        have hnil : f.nodes = [] := by
          unfold Frontier.is_empty at hcase
          exact List.length_eq_zero.mp (by simpa using hcase)
        obtain ⟨k, hk⟩ := hreach
        have hmem := reach_empty_explored hInv hQ hnil hk
        rw [coords, allNodes, hnil, List.nil_append] at hmem
        exact hInv.tNotExp hmem
    rw [solveLoop, if_neg (by rw [hne]; exact Bool.false_ne_true)]
    obtain ⟨m, f', hr⟩ := remove_isSome f Disc.queue hne
    rw [hr]
    dsimp only
    have hm_in_f : m ∈ allNodes f := by
      rw [allNodes, List.mem_append]
      exact .inl (remove_mem_nodes hr)
    by_cases ht : m.state = TARGET
    · rw [if_pos ht]
      have hmt : m.pos = t := (hInv.stateT m hm_in_f).mp ht
      have hwfm := hInv.wf m hm_in_f
      have hms : m.state ≠ START := by
        rw [ht]
        decide
      obtain ⟨g2, hg2⟩ := apply_solution_isSome hwfm hms
      rw [hg2]
      refine ⟨m, g2, f', st + 1, rfl, hmt, ?_, ?_⟩
      · have hre := chainOk_reach m (hInv.chains m hm_in_f)
        rw [hmt] at hre
        exact hre
      · intro k hk
        refine hQ.minimal m hm_in_f k ?_
        rw [hmt]
        exact hk
    · rw [if_neg ht]
      have hmt : m.pos ≠ t := fun hc => ht ((hInv.stateT m hm_in_f).mpr hc)
      have hInv2 : Inv1 rows cols g0 s t (markExplored g m.x m.y) f' :=
        (hInv.remove_pres hr hmt).mark m.x m.y
      have hexp' := (remove_spec hr).2.1
      have hm_in_f' : m ∈ allNodes f' := by
        rw [allNodes, hexp', List.mem_append, List.mem_append]
        exact .inr (.inr (List.mem_singleton_self m))
      have hInv3 := Inv1.foldl_pres
        (get_neighbors rows cols (markExplored g m.x m.y) m) hInv2
        (neighbors_fit hInv2 hm_in_f' hA hB)
      have hQ3 := invQ_step hInv hQ hr
      have hexp_fold := foldl_add_explored
        (get_neighbors rows cols (markExplored g m.x m.y) m) f'
      obtain ⟨goal, g', f'', st', hrr, hgt, hgr, hgmin⟩ :=
        ih (markExplored g m.x m.y) _ (st + 1) hInv3 hQ3
          (by rw [hexp_fold, hexp', List.length_append]; simp; omega)
      exact ⟨goal, g', f'', st', hrr, hgt, hgr, hgmin⟩

/-- C1: on every valid grid whose target is reachable, the queue (FIFO)
discipline returns success and the goal node's parent-chain length — the
reconstructed path's length in moves — is the true shortest-path distance
on the unweighted 4-connected grid of non-wall cells. -/
theorem queue_solve_shortest (mz : Maze) (hv : validMaze mz)
    (hreach : ∃ k, ReachN mz.rows_count mz.cells_count mz.maze_arr
      mz.start_point k mz.end_point)
    (fuel : Nat) (hf : mz.rows_count * mz.cells_count < fuel) :
    ∃ goal g' f' st',
      Maze.solve mz Disc.queue Frontier.empty fuel =
        .ok (some goal, g', f', st') ∧
      goal.pos = mz.end_point ∧
      ReachN mz.rows_count mz.cells_count mz.maze_arr mz.start_point
        goal.depth mz.end_point ∧
      ∀ k, ReachN mz.rows_count mz.cells_count mz.maze_arr mz.start_point
        k mz.end_point → goal.depth ≤ k := by
  obtain ⟨hA, hB, _⟩ := validMaze_spec mz hv
  unfold Maze.solve
  exact solveLoopQ_finds hA hB hreach fuel mz.maze_arr _ mz.steps
    (inv1_init mz hv) (invQ_init mz)
    (by simp [Frontier.empty, Frontier.add, nodeMem]; omega)

/-- Witness for C1 on a one-row maze with shortest distance 2. -/
theorem queue_solve_shortest_witness :
    validMaze demoMaze ∧
    (∃ k, ReachN demoMaze.rows_count demoMaze.cells_count demoMaze.maze_arr
      demoMaze.start_point k demoMaze.end_point) ∧
    ∃ goal g' f' st',
      Maze.solve demoMaze Disc.queue Frontier.empty 4 =
        .ok (some goal, g', f', st') ∧
      goal.pos = demoMaze.end_point ∧
      ReachN demoMaze.rows_count demoMaze.cells_count demoMaze.maze_arr
        demoMaze.start_point goal.depth demoMaze.end_point ∧
      ∀ k, ReachN demoMaze.rows_count demoMaze.cells_count demoMaze.maze_arr
        demoMaze.start_point k demoMaze.end_point → goal.depth ≤ k := by
  have h1 : ReachN demoMaze.rows_count demoMaze.cells_count demoMaze.maze_arr
      demoMaze.start_point 1 (0, 1) :=
    ReachN.step ReachN.refl (by decide) (by decide)
  have hreach : ReachN demoMaze.rows_count demoMaze.cells_count
      demoMaze.maze_arr demoMaze.start_point 2 demoMaze.end_point :=
    ReachN.step h1 (by decide) (by decide)
  exact ⟨by decide, ⟨2, hreach⟩,
    queue_solve_shortest demoMaze (by decide) ⟨2, hreach⟩ 4 (by decide)⟩

/-- Witness for C9 (amended) on the two-cell grid. -/
theorem solve_adjacent_one_move_witness :
    validMaze demoAdjMaze ∧
    adjacentB demoAdjMaze.start_point demoAdjMaze.end_point = true ∧
    demoAdjMaze.rows_count * demoAdjMaze.cells_count < 3 ∧
    ∃ goal g' f' st',
      Maze.solve demoAdjMaze Disc.stack Frontier.empty 3 =
        .ok (some goal, g', f', st') ∧
      goal.pos = demoAdjMaze.end_point ∧ goal.depth = 1 ∧
      demoAdjMaze.steps + 2 ≤ st' ∧ evolves demoAdjMaze.maze_arr g' :=
  ⟨by decide, by decide, by decide,
    solve_adjacent_one_move demoAdjMaze Disc.stack (by decide) (by decide)
      3 (by decide)⟩

end Maze0
